import Mathlib

/-!
Verification of the hierarchical file-system-node subsystem of the visual
project/file-management server (Express + MongoDB backend, `server` entry
point with multi-project support, plus the legacy single-tree server).

The canonical store is modelled as a `List Node` in creation order (MongoDB
returns the documents of a `find` sorted by `createdAt` in the read paths,
and `find`/`findOne`/`deleteOne`/`findOneAndUpdate` operate on the first
matching document, which the list order captures).  Timestamp fields
(`createdAt`, `updatedAt`, `lastModified`) and the decorative metadata
fields (`encoding`, `permissions`) are omitted: no verified property
mentions them.  JavaScript string falsiness (`''` is falsy, `null`/absent
is falsy) is modelled explicitly where the server relies on it.
-/

deriving instance DecidableEq for Except

namespace FSX

/-- A stored file-system-node record, after the `fileSystemNodeSchema`
(multi-project variant; the legacy schema simply never populates
`projectId`).  `lineCount` and `language` stand for `metadata.lineCount`
and `metadata.language`. -/
structure Node where
  id : String
  projectId : String
  type : String
  name : String
  content : String
  parentId : Option String
  x : Int
  y : Int
  expanded : Bool
  size : Nat
  lineCount : Nat
  language : String
deriving DecidableEq

/-- Server helper `calculateFileSize`: `Buffer.byteLength(content, 'utf8')`,
the UTF-8 byte length of the content string. -/
def calculateFileSize (content : String) : Nat :=
  content.utf8ByteSize

/-- Server helper `countLines`: `content.split('\n').length`. -/
def countLines (content : String) : Nat :=
  (content.splitOn "\n").length

/-- Server helper `getLanguageFromExtension`: looks up the lowercased last
dot-separated component of the file name in the language table, defaulting
to `plaintext`. -/
def getLanguageFromExtension (filename : String) : String :=
  let ext := ((filename.splitOn ".").getLastD "").toLower
  if ext = "js" then "javascript"
  else if ext = "jsx" then "javascript"
  else if ext = "ts" then "typescript"
  else if ext = "tsx" then "typescript"
  else if ext = "json" then "json"
  else if ext = "md" then "markdown"
  else if ext = "css" then "css"
  else if ext = "html" then "html"
  else if ext = "py" then "python"
  else if ext = "java" then "java"
  else if ext = "cpp" then "cpp"
  else if ext = "c" then "c"
  else if ext = "xml" then "xml"
  else if ext = "sql" then "sql"
  else if ext = "php" then "php"
  else if ext = "rb" then "ruby"
  else if ext = "go" then "go"
  else if ext = "rs" then "rust"
  else if ext = "sh" then "shell"
  else if ext = "yml" then "yaml"
  else if ext = "yaml" then "yaml"
  else "plaintext"

/-- Error conditions the HTTP handlers can report: 400, 404, 403, 409 and
500 responses respectively.  No handler of the server produces a distinct
"invalid kind" condition; kind mismatches surface through these. -/
inductive ApiError where
  | validation
  | notFound
  | forbidden
  | conflict
  | storage
deriving DecidableEq

/-- Mongoose `findOneAndUpdate(filter, update, {new: true})`: updates the
first document matching the filter and returns the updated document. -/
def updateFirst (p : Node → Bool) (f : Node → Node) : List Node → Option (List Node × Node)
  | [] => none
  | n :: rest =>
    if p n then some (f n :: rest, f n)
    else
      match updateFirst p f rest with
      | none => none
      | some (s, u) => some (n :: s, u)

/-- Handler `PATCH /api/node/:id/position` (first registered handler):
`findOneAndUpdate({id}, {x, y, updatedAt}, {new: true})`, 404 when no
document matches.  The Socket.IO `node-position-updated` emit is
fire-and-forget and does not touch the store. -/
def updateNodePosition (store : List Node) (id : String) (x y : Int) :
    Except ApiError (List Node × Node) :=
  match updateFirst (fun n => n.id == id) (fun n => { n with x := x, y := y }) store with
  | none => .error .notFound
  | some (s, u) => .ok (s, u)

/-- Handler `PATCH /api/node/:id/expanded`:
`findOneAndUpdate({id, type: 'folder'}, {expanded}, {new: true})`; when no
document matches (missing id or a non-folder node) it answers
404 `Folder not found`. -/
def setFolderExpanded (store : List Node) (id : String) (expanded : Bool) :
    Except ApiError (List Node × Node) :=
  match updateFirst (fun n => n.id == id && n.type == "folder")
      (fun n => { n with expanded := expanded }) store with
  | none => .error .notFound
  | some (s, u) => .ok (s, u)

/-- Handler `POST /api/file/:id` (first registered handler):
`findOneAndUpdate({id, type: 'file'}, {content, size: calculateFileSize(content),
'metadata.lineCount': countLines(content), updatedAt}, {new: true})`,
404 when no file document matches. -/
def saveFileContent (store : List Node) (id : String) (content : String) :
    Except ApiError (List Node × Node) :=
  match updateFirst (fun n => n.id == id && n.type == "file")
      (fun n =>
        { n with content := content,
                 size := calculateFileSize content,
                 lineCount := countLines content }) store with
  | none => .error .notFound
  | some (s, u) => .ok (s, u)

/-- Request body of the node-creation endpoints.  Absent JSON string fields
arrive as `undefined`; the handlers only distinguish falsy from truthy, so
absent strings are modelled as `""` and absent numbers as `0`. -/
structure CreateRequest where
  id : String
  type : String
  name : String
  parentId : Option String
  x : Int
  y : Int
  content : String
deriving DecidableEq

/-- The record built by `POST /api/node` before `save()`: content only for
files (schema default `''` otherwise), `expanded` falls back to the schema
default `false`, `size`/`metadata` are computed for files and default
otherwise. -/
def nodeOfRequest (projectId : String) (r : CreateRequest) : Node :=
  { id := r.id
    projectId := projectId
    type := r.type
    name := r.name
    content := if r.type = "file" then r.content else ""
    parentId := r.parentId
    x := r.x
    y := r.y
    expanded := false
    size := if r.type = "file" then calculateFileSize r.content else 0
    lineCount := if r.type = "file" then countLines r.content else 0
    language := if r.type = "file" then getLanguageFromExtension r.name else "" }

/-- Legacy single-tree handler `POST /api/node`: rejects falsy id/type/name
and non-file/folder types with 400, answers 409 when a sibling with the
same `name` and `parentId` exists (`findOne({name, parentId})`), answers
409 on the unique-`id` index violation (`E11000`), and otherwise saves the
new node. -/
def createNode (store : List Node) (r : CreateRequest) : Except ApiError (List Node × Node) :=
  if r.id = "" ∨ r.type = "" ∨ r.name = "" then .error .validation
  else if ¬(r.type = "file" ∨ r.type = "folder") then .error .validation
  else if store.any (fun n => n.name == r.name && n.parentId == r.parentId) then .error .conflict
  else if store.any (fun n => n.id == r.id) then .error .conflict
  else .ok (store ++ [nodeOfRequest "" r], nodeOfRequest "" r)

/-- Multi-project handler `POST /api/projects/:projectId/node`: builds the
node from the body plus the `projectId` route parameter and calls `save()`
directly — there is no sibling-name check.  Schema validation (required
non-empty id/name, type enum) and the unique `(id, projectId)` index reject
through the catch-all 500 response. -/
def createProjectNode (store : List Node) (projectId : String) (r : CreateRequest) :
    Except ApiError (List Node × Node) :=
  if r.id = "" ∨ r.name = "" then .error .storage
  else if ¬(r.type = "file" ∨ r.type = "folder") then .error .storage
  else if store.any (fun n => n.id == r.id && n.projectId == projectId) then .error .storage
  else .ok (store ++ [nodeOfRequest projectId r], nodeOfRequest projectId r)

/-- Mongo query `find({parentId: nodeId})`: the child documents of a node,
across the whole collection. -/
def childrenByParent (store : List Node) (i : String) : List Node :=
  store.filter (fun n => n.parentId = some i)

/-- Helper `collectDescendants` of the transactional `DELETE /api/node/:id`
handler: children first, each child's id followed by that child's own
descendants.  The server recursion has no depth bound and diverges on a
cyclic `parentId` graph; `fuel` bounds the depth here, and
`store.length` is proved sufficient for acyclic stores. -/
def collectDescendants (store : List Node) : Nat → String → List String
  | 0, _ => []
  | fuel + 1, nodeId =>
    (childrenByParent store nodeId).foldr
      (fun child acc => child.id :: (collectDescendants store fuel child.id ++ acc)) []

/-- Mongoose `deleteOne({id: nodeId})`: removes the first matching document. -/
def deleteOneById (store : List Node) (i : String) : List Node :=
  store.eraseP (fun n => n.id == i)

/-- Helper `deleteNodeAndChildren` of the first registered
`DELETE /api/node/:id` handler: recursively deletes all children first,
then the node itself.  As with `collectDescendants`, `fuel` bounds the
recursion depth that is unbounded in the server. -/
def deleteNodeAndChildren : Nat → List Node → String → List Node
  | 0, store, _ => store
  | fuel + 1, store, nodeId =>
    let children := childrenByParent store nodeId
    let store1 := children.foldl (fun s child => deleteNodeAndChildren fuel s child.id) store
    deleteOneById store1 nodeId

/-- First registered handler `DELETE /api/node/:id` — the one Express
dispatches to, since it always terminates the request and never calls
`next()`.  It looks the node up (404 otherwise) and cascade-deletes with
`deleteNodeAndChildren`; it has no root-node guard of any kind. -/
def deleteNodeFirst (store : List Node) (id : String) : Except ApiError (List Node) :=
  match store.find? (fun n => n.id == id) with
  | none => .error .notFound
  | some _ => .ok (deleteNodeAndChildren store.length store id)

/-- Deletion step of the second registered `DELETE /api/node/:id` handler:
`deleteMany({id: {$in: [id, ...descendants]}})`. -/
def deleteNodeCascade (store : List Node) (id : String) : List Node :=
  let toDelete := id :: collectDescendants store store.length id
  store.filter (fun n => n.id ∉ toDelete)

/-- Second registered handler `DELETE /api/node/:id` (shadowed by the first
registration): 403 for the literal id `root`, 404 for a missing node,
otherwise collects the descendants and cascade-deletes inside a
transaction, reporting the full deleted id list. -/
def deleteNodeSecond (store : List Node) (id : String) :
    Except ApiError (List Node × List String) :=
  if id = "root" then .error .forbidden
  else
    match store.find? (fun n => n.id == id) with
    | none => .error .notFound
    | some _ => .ok (deleteNodeCascade store id, id :: collectDescendants store store.length id)

/-- Assembled hierarchical view: a node record together with its derived
`children` sequence. -/
inductive TreeNode where
  | mk (data : Node) (children : List TreeNode)

def TreeNode.data : TreeNode → Node
  | .mk d _ => d

def TreeNode.children : TreeNode → List TreeNode
  | .mk _ cs => cs

/-- Where `buildHierarchy` attaches a node: `node.parentId &&
nodeMap[node.parentId]` — the parent id when it is truthy (non-null,
non-empty) and some node of the input carries it, and no attachment (the
node becomes a root) otherwise. -/
def attachTarget (nodes : List Node) (n : Node) : Option String :=
  match n.parentId with
  | none => none
  | some p => if p ≠ "" ∧ nodes.any (fun m => m.id == p) then some p else none

/-- The input nodes pushed onto the derived `children` array of the map
entry for id `i`, in input order. -/
def childEntries (nodes : List Node) (i : String) : List Node :=
  nodes.filter (fun m => attachTarget nodes m = some i)

/-- The map entry `nodeMap[n.id]`: successive assignments overwrite, so the
entry holds the last input node with that id. -/
def resolve (nodes : List Node) (n : Node) : Node :=
  ((nodes.filter (fun m => m.id = n.id)).getLast?).getD n

/-- Materialisation of the object graph `buildHierarchy` wires up: a node
with the children attached to its id, recursively.  The server returns the
graph itself; reading it as trees terminates exactly when the attachment
relation is acyclic, and `fuel` bounds the depth (`nodes.length` is proved
sufficient for acyclic inputs). -/
def buildSubtree (nodes : List Node) : Nat → Node → TreeNode
  | 0, n => .mk n []
  | fuel + 1, n =>
    .mk n ((childEntries nodes n.id).map (fun m => buildSubtree nodes fuel (resolve nodes m)))

/-- The input nodes pushed onto the `rootNodes` array, in input order. -/
def rootEntries (nodes : List Node) : List Node :=
  nodes.filter (fun n => attachTarget nodes n = none)

/-- Server helper `buildHierarchy` (the `GET /api/projects/:projectId/nodes`
read path; helper `buildTree` of the legacy server is the same algorithm
with a `Map` in place of the object): two passes over the flat input, a map
from id to node (last assignment wins) and an attachment pass that pushes
each node onto its parent entry's `children` or onto the root list. -/
def buildHierarchy (nodes : List Node) : List TreeNode :=
  (rootEntries nodes).map (fun n => buildSubtree nodes nodes.length (resolve nodes n))

/-- Metadata recomputation and stamping `flattenTree` performs on every
visited tree node: files get fresh `size`, `metadata.lineCount` and
`metadata.language`; every node gets the structural `parentId` and the
route's `projectId`. -/
def stampNode (projectId : String) (parentId : Option String) (d : Node) : Node :=
  let d1 :=
    if d.type = "file" then
      { d with size := calculateFileSize d.content,
               lineCount := countLines d.content,
               language := getLanguageFromExtension d.name }
    else d
  { d1 with parentId := parentId, projectId := projectId }

mutual

/-- One step of `flattenTree`: push the stripped, stamped node data, then
recurse into the children with this node's id as the parent. -/
def flattenTreeNode (projectId : String) (parentId : Option String) : TreeNode → List Node
  | .mk d cs => stampNode projectId parentId d :: flattenTree projectId cs (some d.id)

/-- Helper `flattenTree` of `POST /api/projects/:projectId/tree`: walks the
supplied hierarchy depth-first, strips `children`, stamps each node with
its structural parent's id (roots get null) and the project id, and
recomputes file metadata. -/
def flattenTree (projectId : String) : List TreeNode → Option String → List Node
  | [], _ => []
  | t :: ts, parentId =>
    flattenTreeNode projectId parentId t ++ flattenTree projectId ts parentId

end

/-- Result of the transactional bulk-replace endpoint. -/
structure TxOutcome where
  committed : Bool
  store : List Node
deriving DecidableEq

/-- The session-local state of the `POST /api/projects/:projectId/tree`
transaction after `deleteMany({projectId})` and the first `k` documents of
`insertMany`: visible only inside the session, never to other readers. -/
def sessionDraft (store : List Node) (projectId : String) (flat : List Node) (k : Nat) :
    List Node :=
  store.filter (fun n => n.projectId ≠ projectId) ++ flat.take k

/-- Handler `POST /api/projects/:projectId/tree`: flattens the supplied
hierarchy and, inside one Mongo session transaction, deletes the project's
nodes and inserts the flattened set.  `failAt = some k` injects a storage
fault after `k` session writes of `insertMany`; the handler then calls
`abortTransaction`, which discards the session draft, leaving the
committed store untouched.  With no fault the transaction commits the full
draft. -/
def replaceProjectTree (store : List Node) (projectId : String) (hierarchy : List TreeNode)
    (failAt : Option Nat) : TxOutcome :=
  let flat := flattenTree projectId hierarchy none
  match failAt with
  | some _ => { committed := false, store := store }
  | none => { committed := true, store := sessionDraft store projectId flat flat.length }

mutual

/-- Node records of an assembled hierarchy in depth-first preorder — the
order `flattenTree` visits them. -/
def preorderTree : TreeNode → List Node
  | .mk d cs => d :: preorderForest cs

def preorderForest : List TreeNode → List Node
  | [] => []
  | t :: ts => preorderTree t ++ preorderForest ts

end

/-- Parent/child structural shape of an assembled hierarchy: ids and child
lists, with field values and derived metadata erased. -/
inductive Shape where
  | mk (id : String) (children : List Shape)

mutual

def shapeOfTree : TreeNode → Shape
  | .mk d cs => .mk d.id (shapeOfForest cs)

def shapeOfForest : List TreeNode → List Shape
  | [] => []
  | t :: ts => shapeOfTree t :: shapeOfForest ts

end

mutual

/-- Flat fingerprint of a shape: preorder list of (id, number of children).
Two shapes with different fingerprints are different. -/
def shapeSig : Shape → List (String × Nat)
  | .mk i cs => (i, cs.length) :: shapeSigForest cs

def shapeSigForest : List Shape → List (String × Nat)
  | [] => []
  | s :: ss => shapeSig s ++ shapeSigForest ss

end

/-! ## Shared lemmas about `updateFirst` (`findOneAndUpdate`) -/

theorem exists_first_match (p : Node → Bool) (store : List Node)
    (h : ∃ n ∈ store, p n = true) :
    ∃ pre n post, store = pre ++ n :: post ∧ (∀ m ∈ pre, p m = false) ∧ p n = true := by
  induction store with
  | nil => simp at h
  | cons a rest ih =>
    cases hpa : p a with
    | true => exact ⟨[], a, rest, rfl, by simp, hpa⟩
    | false =>
      have hrest : ∃ n ∈ rest, p n = true := by
        rcases h with ⟨n, hn, hpn⟩
        rcases List.mem_cons.mp hn with h1 | h2
        · subst h1; rw [hpa] at hpn; cases hpn
        · exact ⟨n, h2, hpn⟩
      rcases ih hrest with ⟨pre, n, post, heq, hpre, hpn⟩
      refine ⟨a :: pre, n, post, by simp [heq], ?_, hpn⟩
      intro m hm
      rcases List.mem_cons.mp hm with h1 | h2
      · rw [h1]; exact hpa
      · exact hpre m h2

theorem updateFirst_of_split (p : Node → Bool) (f : Node → Node)
    (pre : List Node) (n : Node) (post : List Node)
    (hpre : ∀ m ∈ pre, p m = false) (hn : p n = true) :
    updateFirst p f (pre ++ n :: post) = some (pre ++ f n :: post, f n) := by
  induction pre with
  | nil => simp [updateFirst, hn]
  | cons a pre ih =>
    have hpa : p a = false := hpre a (by simp)
    have := ih (fun m hm => hpre m (by simp [hm]))
    simp [updateFirst, hpa, this]

theorem updateFirst_none (p : Node → Bool) (f : Node → Node) (store : List Node)
    (h : ∀ n ∈ store, p n = false) : updateFirst p f store = none := by
  induction store with
  | nil => rfl
  | cons a rest ih =>
    have hpa : p a = false := h a (by simp)
    have := ih (fun n hn => h n (by simp [hn]))
    simp [updateFirst, hpa, this]

theorem find?_of_split (p : Node → Bool) (pre : List Node) (n : Node) (post : List Node)
    (hpre : ∀ m ∈ pre, p m = false) (hn : p n = true) :
    (pre ++ n :: post).find? p = some n := by
  induction pre with
  | nil => simp [List.find?, hn]
  | cons a pre ih =>
    have hpa : p a = false := hpre a (by simp)
    have := ih (fun m hm => hpre m (by simp [hm]))
    simp [List.find?, hpa, this]

/-! ## C5 — save-file-content recomputes size and lineCount -/

/-- C5: for every existing file node and every new content string, the
save-file-content operation answers the updated node, whose stored `size`
is the exact UTF-8 byte length of the new content and whose
`metadata.lineCount` is `content.split('\n').length`, and stores it. -/
theorem saveFileContent_sets_size_and_lineCount (store : List Node) (id content : String)
    (h : ∃ n ∈ store, n.id = id ∧ n.type = "file") :
    ∃ s u, saveFileContent store id content = .ok (s, u) ∧
      u.id = id ∧ u.type = "file" ∧ u.content = content ∧
      u.size = content.utf8ByteSize ∧
      u.lineCount = (content.splitOn "\n").length ∧
      u ∈ s := by
  have hb : ∃ n ∈ store, (fun n => n.id == id && n.type == "file") n = true := by
    rcases h with ⟨n, hn, h1, h2⟩
    exact ⟨n, hn, by simp [h1, h2]⟩
  rcases exists_first_match _ store hb with ⟨pre, n, post, heq, hpre, hn⟩
  have hid : n.id = id := by
    have := hn; simp only [Bool.and_eq_true, beq_iff_eq] at this; exact this.1
  have hty : n.type = "file" := by
    have := hn; simp only [Bool.and_eq_true, beq_iff_eq] at this; exact this.2
  have upd :
      saveFileContent (pre ++ n :: post) id content =
        .ok (pre ++ ({ n with
          content := content,
          size := calculateFileSize content,
          lineCount := countLines content }) :: post,
          { n with
            content := content,
            size := calculateFileSize content,
            lineCount := countLines content }) := by
    unfold saveFileContent
    rw [updateFirst_of_split _ _ pre n post hpre hn]
  rw [heq]
  exact ⟨_, _, upd, hid, hty, rfl, rfl, rfl, by simp⟩

/-- Witness for C5 on the demo store. -/
def rootDemo : Node :=
  { id := "root-demo", projectId := "demo-project", type := "folder", name := "Demo Root",
    content := "", parentId := none, x := 100, y := 100, expanded := true,
    size := 0, lineCount := 0, language := "" }

def srcFolder : Node :=
  { id := "src-folder", projectId := "demo-project", type := "folder", name := "src",
    content := "", parentId := some "root-demo", x := 100, y := 220, expanded := false,
    size := 0, lineCount := 0, language := "" }

def appFile : Node :=
  { id := "app-js", projectId := "demo-project", type := "file", name := "App.js",
    content := "", parentId := some "src-folder", x := 300, y := 260, expanded := false,
    size := 0, lineCount := 0, language := "" }

def demoStore : List Node := [rootDemo, srcFolder, appFile]

theorem saveFileContent_sets_size_and_lineCount_witness :
    ∃ s u, saveFileContent demoStore "app-js" "a\nb\nc" = .ok (s, u) ∧
      u.id = "app-js" ∧ u.type = "file" ∧ u.content = "a\nb\nc" ∧
      u.size = "a\nb\nc".utf8ByteSize ∧
      u.lineCount = ("a\nb\nc".splitOn "\n").length ∧
      u ∈ s :=
  saveFileContent_sets_size_and_lineCount demoStore "app-js" "a\nb\nc" (by decide)

/-! ## C7 — expanding a file node: no distinct InvalidKind condition -/

/-- C7 counterexample: toggling the expanded flag of a file node fails with
the very same NotFound condition (404 `Folder not found`) that a
nonexistent id produces — not with a distinct InvalidKind condition. -/
theorem setFolderExpanded_file_counterexample :
    setFolderExpanded [appFile] "app-js" true = .error .notFound ∧
    setFolderExpanded ([] : List Node) "app-js" true = .error .notFound := by
  constructor <;> rfl

/-- C7 amended: the operation updates the first folder document with the
requested id, setting `expanded` to the requested value; when every node
with that id is a non-folder (in particular a file) or the id is absent,
it fails with the single NotFound condition — the server never
distinguishes an InvalidKind case. -/
theorem setFolderExpanded_spec (store : List Node) (id : String) (e : Bool) :
    ((∀ n ∈ store, ¬(n.id = id ∧ n.type = "folder")) →
      setFolderExpanded store id e = .error .notFound) ∧
    ((∃ n ∈ store, n.id = id ∧ n.type = "folder") →
      ∃ s u, setFolderExpanded store id e = .ok (s, u) ∧
        u.id = id ∧ u.type = "folder" ∧ u.expanded = e ∧ u ∈ s) := by
  constructor
  · intro h
    have : ∀ n ∈ store, (fun n => n.id == id && n.type == "folder") n = false := by
      intro n hn
      have := h n hn
      by_cases h1 : n.id = id
      · by_cases h2 : n.type = "folder"
        · exact absurd ⟨h1, h2⟩ this
        · simp [h2]
      · simp [h1]
    unfold setFolderExpanded
    rw [updateFirst_none _ _ store this]
  · intro h
    have hb : ∃ n ∈ store, (fun n => n.id == id && n.type == "folder") n = true := by
      rcases h with ⟨n, hn, h1, h2⟩
      exact ⟨n, hn, by simp [h1, h2]⟩
    rcases exists_first_match _ store hb with ⟨pre, n, post, heq, hpre, hn⟩
    have hid : n.id = id := by
      have := hn; simp only [Bool.and_eq_true, beq_iff_eq] at this; exact this.1
    have hty : n.type = "folder" := by
      have := hn; simp only [Bool.and_eq_true, beq_iff_eq] at this; exact this.2
    refine ⟨pre ++ { n with expanded := e } :: post, { n with expanded := e },
      ?_, hid, hty, rfl, by simp⟩
    rw [heq]
    unfold setFolderExpanded
    rw [updateFirst_of_split _ _ pre n post hpre hn]

theorem setFolderExpanded_spec_witness :
    setFolderExpanded [appFile] "src-folder" true = .error .notFound ∧
    (∃ s u, setFolderExpanded demoStore "src-folder" true = .ok (s, u) ∧
      u.id = "src-folder" ∧ u.type = "folder" ∧ u.expanded = true ∧ u ∈ s) :=
  ⟨(setFolderExpanded_spec [appFile] "src-folder" true).1 (by decide),
   (setFolderExpanded_spec demoStore "src-folder" true).2 (by decide)⟩

/-! ## C9 — position updates are last-write-wins -/

/-- C9: applying position update A and then position update B to the same
id leaves the stored node at B's coordinates; the Socket.IO notification
steps are fire-and-forget emissions that never touch the store, so the
outcome is independent of their interleaving. -/
theorem updateNodePosition_last_write_wins (store : List Node) (id : String)
    (xa ya xb yb : Int) (h : ∃ n ∈ store, n.id = id) :
    ∃ s1 u1 s2 u2,
      updateNodePosition store id xa ya = .ok (s1, u1) ∧
      updateNodePosition s1 id xb yb = .ok (s2, u2) ∧
      u2.id = id ∧ u2.x = xb ∧ u2.y = yb ∧
      s2.find? (fun n => n.id == id) = some u2 := by
  have hb : ∃ n ∈ store, (fun n => n.id == id) n = true := by
    rcases h with ⟨n, hn, h1⟩
    exact ⟨n, hn, by simp [h1]⟩
  rcases exists_first_match _ store hb with ⟨pre, n, post, heq, hpre, hn⟩
  have hid : n.id = id := by simpa using hn
  have h1 : updateNodePosition store id xa ya =
      .ok (pre ++ { n with x := xa, y := ya } :: post, { n with x := xa, y := ya }) := by
    rw [heq]
    unfold updateNodePosition
    rw [updateFirst_of_split _ _ pre n post hpre hn]
  have hn2 : (fun m => m.id == id) ({ n with x := xa, y := ya } : Node) = true := by
    simp [hid]
  have h2 : updateNodePosition (pre ++ { n with x := xa, y := ya } :: post) id xb yb =
      .ok (pre ++ { n with x := xb, y := yb } :: post, { n with x := xb, y := yb }) := by
    unfold updateNodePosition
    rw [updateFirst_of_split _ _ pre { n with x := xa, y := ya } post hpre hn2]
  exact ⟨_, _, _, _, h1, h2, hid, rfl, rfl,
    find?_of_split _ pre { n with x := xb, y := yb } post hpre (by simp [hid])⟩

theorem updateNodePosition_last_write_wins_witness :
    ∃ s1 u1 s2 u2,
      updateNodePosition demoStore "src-folder" 1 2 = .ok (s1, u1) ∧
      updateNodePosition s1 "src-folder" 7 9 = .ok (s2, u2) ∧
      u2.id = "src-folder" ∧ u2.x = 7 ∧ u2.y = 9 ∧
      s2.find? (fun n => n.id == "src-folder") = some u2 :=
  updateNodePosition_last_write_wins demoStore "src-folder" 1 2 7 9 (by decide)

/-! ## C8 — sibling name-uniqueness is enforced inconsistently -/

/-- C8: under the very same sibling-name conflict (an existing node with
the same `name` and `parentId`), the legacy single-tree create handler
answers 409 Conflict while the multi-project create handler runs no
sibling check at all and persists the duplicate-named node. -/
theorem sibling_name_check_inconsistent (store : List Node) (pid : String) (r : CreateRequest)
    (hc : ∃ n ∈ store, n.name = r.name ∧ n.parentId = r.parentId)
    (hid : r.id ≠ "") (hname : r.name ≠ "")
    (htype : r.type = "file" ∨ r.type = "folder")
    (hfresh : ∀ n ∈ store, ¬(n.id = r.id ∧ n.projectId = pid)) :
    createNode store r = .error .conflict ∧
    createProjectNode store pid r =
      .ok (store ++ [nodeOfRequest pid r], nodeOfRequest pid r) := by
  have htne : r.type ≠ "" := by
    rcases htype with h | h <;> rw [h] <;> decide
  have hcb : store.any (fun n => n.name == r.name && n.parentId == r.parentId) = true := by
    rcases hc with ⟨n, hn, h1, h2⟩
    exact List.any_eq_true.mpr ⟨n, hn, by simp [h1, h2]⟩
  have hfb : store.any (fun n => n.id == r.id && n.projectId == pid) = false := by
    rw [List.any_eq_false]
    intro n hn
    have := hfresh n hn
    by_cases h1 : n.id = r.id
    · by_cases h2 : n.projectId = pid
      · exact absurd ⟨h1, h2⟩ this
      · simp [h2]
    · simp [h1]
  constructor
  · unfold createNode
    rw [if_neg (by simp [hid, hname, htne]), if_neg (by simp [htype]), if_pos hcb]
  · unfold createProjectNode
    rw [if_neg (by simp [hid, hname]), if_neg (by simp [htype]), hfb]
    rfl

def conflictRequest : CreateRequest :=
  { id := "src-2", type := "folder", name := "src", parentId := some "root-demo",
    x := 0, y := 0, content := "" }

theorem sibling_name_check_inconsistent_witness :
    createNode demoStore conflictRequest = .error .conflict ∧
    createProjectNode demoStore "demo-project" conflictRequest =
      .ok (demoStore ++ [nodeOfRequest "demo-project" conflictRequest],
           nodeOfRequest "demo-project" conflictRequest) :=
  sibling_name_check_inconsistent demoStore "demo-project" conflictRequest
    (by decide) (by decide) (by decide) (by decide) (by decide)

/-! ## C3 — replaceProjectTree is atomic -/

/-- C3: when persistence of the new node set fails at any point of the
transaction (after any number `k` of session writes), the abort discards
the session draft and the project's pre-call node set is returned fully
intact — none of the new nodes persisted, none of the old nodes lost;
when no failure occurs, the commit installs exactly the old non-project
nodes followed by the flattened new set. -/
theorem replaceProjectTree_atomic (store : List Node) (pid : String)
    (hierarchy : List TreeNode) (k : Nat) :
    ((replaceProjectTree store pid hierarchy (some k)).committed = false ∧
     (replaceProjectTree store pid hierarchy (some k)).store = store ∧
     (∀ n, n ∈ (replaceProjectTree store pid hierarchy (some k)).store ↔ n ∈ store)) ∧
    (replaceProjectTree store pid hierarchy none).store =
      store.filter (fun n => n.projectId ≠ pid) ++ flattenTree pid hierarchy none := by
  refine ⟨⟨rfl, rfl, fun n => Iff.rfl⟩, ?_⟩
  unfold replaceProjectTree sessionDraft
  simp

/-! ## C2 — deleting a designated project root is not refused -/

/-- C2 counterexample: `root-demo` is a designated project root
(`parentId` null, the demo project's root); the delete-node operation —
the first registered handler, which Express dispatches to — deletes it and
its whole subtree instead of failing with Forbidden, and even the shadowed
second handler (whose guard tests only the literal id `root`) deletes it
as well. -/
theorem deleteNode_root_counterexample :
    rootDemo.parentId = none ∧
    deleteNodeFirst demoStore "root-demo" = .ok [] ∧
    deleteNodeFirst demoStore "root-demo" ≠ .error .forbidden ∧
    deleteNodeSecond demoStore "root-demo" ≠ .error .forbidden := by
  refine ⟨rfl, by decide, by decide, by decide⟩

/-- C2 amended: the only Forbidden refusal in the source is the literal id
`root` guard of the second registered `DELETE /api/node/:id` handler
(which, being registered after the first, is shadowed and unreachable);
that refusal performs no mutation (the error result carries no store
change), while the operative first handler never reports Forbidden for any
id. -/
theorem deleteNode_forbidden_spec (store : List Node) (id : String) :
    deleteNodeSecond store "root" = .error .forbidden ∧
    deleteNodeFirst store id ≠ .error .forbidden := by
  constructor
  · rfl
  · unfold deleteNodeFirst
    cases store.find? (fun n => n.id == id) <;> simp

/-! ## Reachability along a child relation

Both cascade deletion (`find({parentId})`) and hierarchy assembly
(`children` attachment) walk a child relation from a starting id.  The
relation is abstracted as a child query `cf : String → List Node` so the
lemmas serve both instances. -/

/-- `ReachN cf k r d`: `d` is the id of a node reached from id `r` in `k`
child steps of the query `cf`. -/
inductive ReachN (cf : String → List Node) : Nat → String → String → Prop where
  | child {r : String} {n : Node} : n ∈ cf r → ReachN cf 1 r n.id
  | step {r : String} {n : Node} {k : Nat} {d : String} :
      n ∈ cf r → ReachN cf k n.id d → ReachN cf (k + 1) r d

/-- `d` is the id of a transitive descendant of id `r` under `cf`. -/
def Reaches (cf : String → List Node) (r d : String) : Prop :=
  ∃ k, ReachN cf k r d

theorem reachN_rank {cf : String → List Node} {rank : String → Nat}
    (hrank : ∀ i, ∀ n ∈ cf i, rank i < rank n.id) :
    ∀ {k r d}, ReachN cf k r d → rank r + k ≤ rank d := by
  intro k r d h
  induction h with
  | child hn => have := hrank _ _ hn; omega
  | step hn _ ih => have := hrank _ _ hn; omega

theorem reaches_rank {cf : String → List Node} {rank : String → Nat}
    (hrank : ∀ i, ∀ n ∈ cf i, rank i < rank n.id) {r d : String}
    (h : Reaches cf r d) : rank r < rank d := by
  rcases h with ⟨k, h⟩
  have := reachN_rank hrank h
  cases h <;> omega

theorem reaches_irrefl {cf : String → List Node} {rank : String → Nat}
    (hrank : ∀ i, ∀ n ∈ cf i, rank i < rank n.id) {r : String} :
    ¬Reaches cf r r := fun h => absurd (reaches_rank hrank h) (by omega)

theorem reaches_trans {cf : String → List Node} {a b c : String}
    (h1 : Reaches cf a b) (h2 : Reaches cf b c) : Reaches cf a c := by
  rcases h1 with ⟨k1, h1⟩
  induction h1 with
  | child hn => rcases h2 with ⟨k2, h2⟩; exact ⟨k2 + 1, .step hn h2⟩
  | step hn _ ih => rcases ih h2 with ⟨k, h⟩; exact ⟨k + 1, .step hn h⟩

theorem reaches_snoc {cf : String → List Node} {r d : String}
    (h : Reaches cf r d) {n : Node} (hn : n ∈ cf d) : Reaches cf r n.id :=
  reaches_trans h ⟨1, .child hn⟩

/-- First-edge inversion: any reached id goes through some child of the root. -/
theorem reaches_head {cf : String → List Node} {r d : String} (h : Reaches cf r d) :
    ∃ n ∈ cf r, d = n.id ∨ Reaches cf n.id d := by
  rcases h with ⟨k, h⟩
  cases h with
  | child hn => exact ⟨_, hn, Or.inl rfl⟩
  | step hn h' => exact ⟨_, hn, Or.inr ⟨_, h'⟩⟩

/-- Last-edge inversion: any reached id is a child of the root or of a
reached id. -/
theorem reaches_last {cf : String → List Node} {r d : String} (h : Reaches cf r d) :
    ∃ q, ∃ n ∈ cf q, n.id = d ∧ (q = r ∨ Reaches cf r q) := by
  rcases h with ⟨k, h⟩
  induction h with
  | child hn => exact ⟨_, _, hn, rfl, Or.inl rfl⟩
  | step hn h' ih =>
    rcases ih with ⟨q, m, hm, hid, hq⟩
    rcases hq with h1 | h2
    · exact ⟨q, m, hm, hid, Or.inr (by subst h1; exact ⟨1, .child hn⟩)⟩
    · exact ⟨q, m, hm, hid, Or.inr (reaches_trans ⟨1, .child hn⟩ h2)⟩

/-- With unique parents and a rank certificate, no node reaches back into a
sibling (or itself) at its own parent. -/
theorem not_reaches_sibling {cf : String → List Node} {rank : String → Nat}
    (hrank : ∀ i, ∀ n ∈ cf i, rank i < rank n.id)
    (hup : ∀ q1 q2 (n1 n2 : Node), n1 ∈ cf q1 → n2 ∈ cf q2 → n1.id = n2.id → q1 = q2)
    {r : String} {c c' : Node} (hc : c ∈ cf r) (hc' : c' ∈ cf r)
    (h : Reaches cf c'.id c.id) : False := by
  rcases reaches_last h with ⟨q, n, hn, hid, hq⟩
  have hqr : q = r := hup _ _ _ _ hn hc hid
  subst hqr
  rcases hq with h1 | h2
  · subst h1
    exact absurd (hrank _ _ hc') (by omega)
  · have h3 := reaches_rank hrank h2
    have h4 := hrank _ _ hc'
    omega

/-- Ancestors of an id are linearly ordered by reachability. -/
theorem reaches_linear_aux {cf : String → List Node} {rank : String → Nat}
    (hrank : ∀ i, ∀ n ∈ cf i, rank i < rank n.id)
    (hup : ∀ q1 q2 (n1 n2 : Node), n1 ∈ cf q1 → n2 ∈ cf q2 → n1.id = n2.id → q1 = q2) :
    ∀ N d, rank d < N → ∀ a b, Reaches cf a d → Reaches cf b d →
      a = b ∨ Reaches cf a b ∨ Reaches cf b a := by
  intro N
  induction N with
  | zero => intro d hd; omega
  | succ N ih =>
    intro d hd a b ha hb
    rcases reaches_last ha with ⟨q1, n1, hn1, hid1, hq1⟩
    rcases reaches_last hb with ⟨q2, n2, hn2, hid2, hq2⟩
    have hqq : q1 = q2 := hup _ _ _ _ hn1 hn2 (by rw [hid1, hid2])
    subst hqq
    have hrq : rank q1 < rank d := by
      have := hrank _ _ hn1; rw [hid1] at this; omega
    rcases hq1 with h1 | hra
    · rcases hq2 with h2 | hrb
      · exact Or.inl (h1.symm.trans h2)
      · exact Or.inr (Or.inr (h1 ▸ hrb))
    · rcases hq2 with h2 | hrb
      · exact Or.inr (Or.inl (h2 ▸ hra))
      · exact ih q1 (by omega) a b hra hrb

theorem reaches_linear {cf : String → List Node} {rank : String → Nat}
    (hrank : ∀ i, ∀ n ∈ cf i, rank i < rank n.id)
    (hup : ∀ q1 q2 (n1 n2 : Node), n1 ∈ cf q1 → n2 ∈ cf q2 → n1.id = n2.id → q1 = q2)
    {d a b : String} (ha : Reaches cf a d) (hb : Reaches cf b d) :
    a = b ∨ Reaches cf a b ∨ Reaches cf b a :=
  reaches_linear_aux hrank hup (rank d + 1) d (by omega) a b ha hb

/-- Two children of the same id whose subtrees both cover `d` are the same
child: subtrees of distinct siblings are disjoint. -/
theorem reaches_branch_unique {cf : String → List Node} {rank : String → Nat}
    (hrank : ∀ i, ∀ n ∈ cf i, rank i < rank n.id)
    (hup : ∀ q1 q2 (n1 n2 : Node), n1 ∈ cf q1 → n2 ∈ cf q2 → n1.id = n2.id → q1 = q2)
    {r d : String} {c1 c2 : Node} (h1 : c1 ∈ cf r) (h2 : c2 ∈ cf r)
    (hd1 : d = c1.id ∨ Reaches cf c1.id d) (hd2 : d = c2.id ∨ Reaches cf c2.id d) :
    c1.id = c2.id := by
  rcases hd1 with rfl | hr1
  · rcases hd2 with h | hr2
    · exact h
    · exact absurd (not_reaches_sibling hrank hup h1 h2 hr2) (by simp)
  · rcases hd2 with rfl | hr2
    · exact absurd (not_reaches_sibling hrank hup h2 h1 hr1) (by simp)
    · rcases reaches_linear hrank hup hr1 hr2 with h | h | h
      · exact h
      · exact absurd (not_reaches_sibling hrank hup h2 h1 h) (by simp)
      · exact absurd (not_reaches_sibling hrank hup h1 h2 h) (by simp)

/-! ## The delete-cascade child relation -/

theorem mem_childrenByParent {store : List Node} {i : String} {n : Node} :
    n ∈ childrenByParent store i ↔ n ∈ store ∧ n.parentId = some i := by
  simp [childrenByParent]

/-- Acyclicity certificate: a rank strictly increasing from parent id to
node id.  Any acyclic parent graph admits one (depth below the roots). -/
def rankOk (rank : String → Nat) (n : Node) : Bool :=
  match n.parentId with
  | none => true
  | some p => decide (rank p < rank n.id)

theorem rankOk_lt {rank : String → Nat} {n : Node} {p : String}
    (h : rankOk rank n = true) (hp : n.parentId = some p) : rank p < rank n.id := by
  unfold rankOk at h
  rw [hp] at h
  exact of_decide_eq_true h

theorem nodup_id_inj {store : List Node} (h : (store.map Node.id).Nodup)
    {m n : Node} (hm : m ∈ store) (hn : n ∈ store) (hid : m.id = n.id) : m = n :=
  List.inj_on_of_nodup_map h hm hn hid

theorem childrenByParent_rank {store : List Node} {rank : String → Nat}
    (hrank : ∀ n ∈ store, rankOk rank n = true) :
    ∀ i, ∀ n ∈ childrenByParent store i, rank i < rank n.id := by
  intro i n hn
  rcases mem_childrenByParent.mp hn with ⟨hmem, hp⟩
  exact rankOk_lt (hrank n hmem) hp

theorem childrenByParent_up {store : List Node} (hnodup : (store.map Node.id).Nodup) :
    ∀ q1 q2 (n1 n2 : Node), n1 ∈ childrenByParent store q1 →
      n2 ∈ childrenByParent store q2 → n1.id = n2.id → q1 = q2 := by
  intro q1 q2 n1 n2 h1 h2 hid
  rcases mem_childrenByParent.mp h1 with ⟨hm1, hp1⟩
  rcases mem_childrenByParent.mp h2 with ⟨hm2, hp2⟩
  have := nodup_id_inj hnodup hm1 hm2 hid
  subst this
  rw [hp1] at hp2
  exact Option.some.inj hp2

theorem reaches_target_mem {store : List Node} {r d : String}
    (h : Reaches (childrenByParent store) r d) : ∃ n ∈ store, n.id = d := by
  rcases reaches_last h with ⟨q, n, hn, hid, _⟩
  exact ⟨n, (mem_childrenByParent.mp hn).1, hid⟩

/-! ## Properties of `collectDescendants` -/

theorem mem_collect_fold {g : String → List String} {l : List Node} {d : String} :
    d ∈ l.foldr (fun c acc => c.id :: (g c.id ++ acc)) [] ↔
      ∃ c ∈ l, d = c.id ∨ d ∈ g c.id := by
  induction l with
  | nil => simp
  | cons c l ih =>
    simp only [List.foldr_cons, List.mem_cons, List.mem_append, ih]
    constructor
    · rintro (h | h | h)
      · exact ⟨c, by simp, Or.inl h⟩
      · exact ⟨c, by simp, Or.inr h⟩
      · rcases h with ⟨c', hc', h'⟩; exact ⟨c', by simp [hc'], h'⟩
    · rintro ⟨c', hc', h'⟩
      rcases hc' with rfl | hc2
      · rcases h' with h | h
        · exact Or.inl h
        · exact Or.inr (Or.inl h)
      · exact Or.inr (Or.inr ⟨c', hc2, h'⟩)

theorem collectDescendants_sound {store : List Node} :
    ∀ fuel r d, d ∈ collectDescendants store fuel r →
      Reaches (childrenByParent store) r d := by
  intro fuel
  induction fuel with
  | zero => intro r d h; simp [collectDescendants] at h
  | succ fuel ih =>
    intro r d h
    rw [collectDescendants] at h
    rcases mem_collect_fold.mp h with ⟨c, hc, h1 | h2⟩
    · subst h1; exact ⟨1, .child hc⟩
    · exact reaches_trans ⟨1, .child hc⟩ (ih c.id d h2)

theorem reachN_mem_collect {store : List Node} :
    ∀ {k r d fuel}, ReachN (childrenByParent store) k r d → k ≤ fuel →
      d ∈ collectDescendants store fuel r := by
  intro k r d fuel h
  induction h generalizing fuel with
  | child hn =>
    intro hk
    cases fuel with
    | zero => omega
    | succ fuel =>
      rw [collectDescendants]
      exact mem_collect_fold.mpr ⟨_, hn, Or.inl rfl⟩
  | step hn _ ih =>
    intro hk
    cases fuel with
    | zero => omega
    | succ fuel =>
      rw [collectDescendants]
      exact mem_collect_fold.mpr ⟨_, hn, Or.inr (ih (by omega))⟩

/-- With enough fuel and an acyclicity certificate bounded by the fuel, the
collected ids are exactly the transitive descendant ids. -/
theorem mem_collectDescendants_iff {store : List Node} {rank : String → Nat}
    (hrank : ∀ n ∈ store, rankOk rank n = true)
    (hbound : ∀ n ∈ store, rank n.id < store.length) {r d : String} :
    d ∈ collectDescendants store store.length r ↔
      Reaches (childrenByParent store) r d := by
  constructor
  · exact collectDescendants_sound _ r d
  · intro h
    rcases h with ⟨k, hk⟩
    have h1 := reachN_rank (childrenByParent_rank hrank) hk
    rcases reaches_target_mem ⟨k, hk⟩ with ⟨n, hn, hid⟩
    have h2 := hbound n hn
    rw [hid] at h2
    exact reachN_mem_collect hk (by omega)

theorem collect_fold_nodup {store : List Node} {rank : String → Nat} {fuel : Nat}
    (hrank : ∀ i, ∀ n ∈ childrenByParent store i, rank i < rank n.id)
    (hup : ∀ q1 q2 (n1 n2 : Node), n1 ∈ childrenByParent store q1 →
      n2 ∈ childrenByParent store q2 → n1.id = n2.id → q1 = q2)
    (hnodup : (store.map Node.id).Nodup)
    (r : String) (ihfuel : ∀ r', (collectDescendants store fuel r').Nodup) :
    ∀ l : List Node, l.Nodup → (∀ c ∈ l, c ∈ childrenByParent store r) →
      (l.foldr (fun c acc => c.id :: (collectDescendants store fuel c.id ++ acc)) []).Nodup := by
  intro l
  induction l with
  | nil => simp
  | cons c l ih =>
    intro hnd hsub
    have hc : c ∈ childrenByParent store r := hsub c (by simp)
    have hcl : c ∉ l := (List.nodup_cons.mp hnd).1
    have hrest := ih (List.nodup_cons.mp hnd).2 (fun c' hc' => hsub c' (by simp [hc']))
    simp only [List.foldr_cons]
    rw [List.nodup_cons]
    constructor
    · intro hmem
      rcases List.mem_append.mp hmem with h | h
      · exact reaches_irrefl hrank (collectDescendants_sound fuel c.id c.id h)
      · rcases mem_collect_fold.mp h with ⟨c', hc', h' | h'⟩
        · have : c = c' := nodup_id_inj hnodup (mem_childrenByParent.mp hc).1
            (mem_childrenByParent.mp (hsub c' (by simp [hc']))).1 h'
          exact hcl (this ▸ hc')
        · exact not_reaches_sibling hrank hup hc (hsub c' (by simp [hc']))
            (collectDescendants_sound fuel c'.id c.id h')
    · rw [List.nodup_append]
      refine ⟨ihfuel c.id, hrest, ?_⟩
      intro d hd1 hd2
      rcases mem_collect_fold.mp hd2 with ⟨c', hc', h'⟩
      have h2 : d = c'.id ∨ Reaches (childrenByParent store) c'.id d := by
        rcases h' with h | h
        · exact Or.inl h
        · exact Or.inr (collectDescendants_sound fuel c'.id d h)
      have hcid : c.id = c'.id :=
        reaches_branch_unique hrank hup hc (hsub c' (by simp [hc']))
          (Or.inr (collectDescendants_sound fuel c.id d hd1)) h2
      have : c = c' := nodup_id_inj hnodup (mem_childrenByParent.mp hc).1
        (mem_childrenByParent.mp (hsub c' (by simp [hc']))).1 hcid
      exact hcl (this ▸ hc')

theorem collectDescendants_nodup {store : List Node} {rank : String → Nat}
    (hrank : ∀ n ∈ store, rankOk rank n = true)
    (hnodup : (store.map Node.id).Nodup) :
    ∀ fuel r, (collectDescendants store fuel r).Nodup := by
  intro fuel
  induction fuel with
  | zero => intro r; simp [collectDescendants]
  | succ fuel ih =>
    intro r
    rw [collectDescendants]
    exact collect_fold_nodup (childrenByParent_rank hrank) (childrenByParent_up hnodup)
      hnodup r ih (childrenByParent store r)
      ((hnodup.of_map).filter _) (fun c hc => hc)

theorem mem_deleteNodeCascade {store : List Node} {i : String} {n : Node} :
    n ∈ deleteNodeCascade store i ↔
      n ∈ store ∧ n.id ∉ i :: collectDescendants store store.length i := by
  simp [deleteNodeCascade]

/-! ## The first delete handler computes the same cascade -/

/-- Membership of a record in the subtree deleted at id `r`. -/
def InSubtree (store : List Node) (r : String) (n : Node) : Prop :=
  n.id = r ∨ Reaches (childrenByParent store) r n.id

theorem reachN_mono {cf1 cf2 : String → List Node} (hsub : ∀ i, ∀ n ∈ cf1 i, n ∈ cf2 i) :
    ∀ {k r d}, ReachN cf1 k r d → ReachN cf2 k r d := by
  intro k r d h
  induction h with
  | child hn => exact .child (hsub _ _ hn)
  | step hn _ ih => exact .step (hsub _ _ hn) ih

theorem childrenByParent_filter {store : List Node} {q : Node → Bool} {i : String} :
    childrenByParent (store.filter q) i = (childrenByParent store i).filter q := by
  unfold childrenByParent
  rw [List.filter_filter, List.filter_filter]
  apply List.filter_congr
  intro n _
  rw [Bool.and_comm]

theorem nodup_ids_filter {store : List Node} (h : (store.map Node.id).Nodup)
    (q : Node → Bool) : ((store.filter q).map Node.id).Nodup :=
  h.sublist ((store.filter_sublist).map Node.id)

theorem reaches_filter_mono {store : List Node} {q : Node → Bool} {r d : String}
    (h : Reaches (childrenByParent (store.filter q)) r d) :
    Reaches (childrenByParent store) r d := by
  rcases h with ⟨k, h⟩
  refine ⟨k, reachN_mono ?_ h⟩
  intro j m hm
  rw [childrenByParent_filter] at hm
  exact (List.mem_filter.mp hm).1

theorem reachN_filter_of_keep {store : List Node} {q : Node → Bool} :
    ∀ {k r d}, ReachN (childrenByParent store) k r d →
      (∀ m ∈ store, Reaches (childrenByParent store) r m.id → q m = true) →
      ReachN (childrenByParent (store.filter q)) k r d := by
  intro k r d h
  induction h with
  | child hn =>
    intro hkeep
    have hm := mem_childrenByParent.mp hn
    have hq := hkeep _ hm.1 ⟨1, .child hn⟩
    refine .child ?_
    rw [childrenByParent_filter]
    exact List.mem_filter.mpr ⟨hn, hq⟩
  | step hn h2 ih =>
    intro hkeep
    have hm := mem_childrenByParent.mp hn
    have hq := hkeep _ hm.1 ⟨1, .child hn⟩
    refine .step ?_ (ih ?_)
    · rw [childrenByParent_filter]
      exact List.mem_filter.mpr ⟨hn, hq⟩
    · intro m hmm hr
      exact hkeep m hmm (reaches_trans ⟨1, .child hn⟩ hr)

theorem eraseP_eq_filter_of_unique (p : Node → Bool) :
    ∀ l : List Node, l.Nodup → (∀ a ∈ l, ∀ b ∈ l, p a = true → p b = true → a = b) →
      l.eraseP p = l.filter (fun a => !(p a)) := by
  intro l
  induction l with
  | nil => intro _ _; rfl
  | cons a l ih =>
    intro hnd huniq
    cases hpa : p a with
    | true =>
      rw [List.eraseP_cons_of_pos hpa, List.filter_cons_of_neg (by simp [hpa])]
      symm
      rw [List.filter_eq_self]
      intro b hb
      cases hpb : p b with
      | false => simp
      | true =>
        have heq : a = b := huniq a (by simp) b (by simp [hb]) hpa hpb
        exact absurd (heq ▸ hb) (List.nodup_cons.mp hnd).1
    | false =>
      rw [List.eraseP_cons_of_neg (by simp [hpa]), List.filter_cons_of_pos (by simp [hpa]),
        ih (List.nodup_cons.mp hnd).2 (fun x hx y hy => huniq x (by simp [hx]) y (by simp [hy]))]

theorem insubtree_head {store : List Node} {i : String} {n : Node} :
    InSubtree store i n ↔
      n.id = i ∨ ∃ c ∈ childrenByParent store i, InSubtree store c.id n := by
  unfold InSubtree
  constructor
  · rintro (h | h)
    · exact Or.inl h
    · rcases reaches_head h with ⟨c, hc, hd⟩
      exact Or.inr ⟨c, hc, hd⟩
  · rintro (h | ⟨c, hc, hh⟩)
    · exact Or.inl h
    · rcases hh with h | h
      · refine Or.inr ?_
        rw [h]
        exact ⟨1, .child hc⟩
      · exact Or.inr (reaches_trans ⟨1, .child hc⟩ h)

open Classical in
/-- The children-first recursive deletion of the first registered handler
removes exactly the records of the deleted subtree: with enough fuel on an
acyclic distinct-id store it equals a filter by subtree membership. -/
theorem deleteNodeAndChildren_eq_filter {rank : String → Nat} {L : Nat} :
    ∀ fuel (store : List Node) (i : String),
      (store.map Node.id).Nodup →
      (∀ n ∈ store, rankOk rank n = true) →
      (∀ n ∈ store, rank n.id < L) →
      L ≤ rank i + fuel →
      deleteNodeAndChildren fuel store i
        = store.filter (fun n => decide (¬InSubtree store i n)) := by
  intro fuel
  induction fuel with
  | zero =>
    intro store i hnodup hrank hbound hf
    rw [deleteNodeAndChildren]
    symm
    rw [List.filter_eq_self]
    intro n hn
    simp only [decide_eq_true_eq]
    rintro (hid | hre)
    · have h1 := hbound n hn
      rw [hid] at h1
      omega
    · rcases reaches_head hre with ⟨c, hc, _⟩
      have h1 := childrenByParent_rank hrank i c hc
      have h2 := hbound c (mem_childrenByParent.mp hc).1
      omega
  | succ fuel ih =>
    intro store i hnodup hrank hbound hf
    have hcr := childrenByParent_rank hrank
    have hcu := childrenByParent_up hnodup
    have hCnodup : (childrenByParent store i).Nodup := (hnodup.of_map).filter _
    show deleteOneById
        ((childrenByParent store i).foldl (fun s c => deleteNodeAndChildren fuel s c.id) store) i
      = store.filter (fun n => decide (¬InSubtree store i n))
    have fold_eq : ∀ (C2 P : List Node),
        childrenByParent store i = P ++ C2 →
        C2.foldl (fun s c => deleteNodeAndChildren fuel s c.id)
            (store.filter (fun n => decide (¬∃ c ∈ P, InSubtree store c.id n)))
          = store.filter (fun n => decide (¬∃ c ∈ P ++ C2, InSubtree store c.id n)) := by
      intro C2
      induction C2 with
      | nil =>
        intro P hP
        rw [List.foldl_nil, List.append_nil]
      | cons c C3 ihC =>
        intro P hP
        have hcC : c ∈ childrenByParent store i := by
          rw [hP]
          exact List.mem_append.mpr (Or.inr (by simp))
        have hcP : c ∉ P := by
          intro hmem
          have := hP ▸ hCnodup
          rw [List.nodup_append] at this
          exact this.2.2 hmem (by simp)
        have hkeep : ∀ m ∈ store, Reaches (childrenByParent store) c.id m.id →
            (fun n => decide (¬∃ c' ∈ P, InSubtree store c'.id n)) m = true := by
          intro m hm hre
          simp only [decide_eq_true_eq]
          rintro ⟨c', hc', hin⟩
          have hc'C : c' ∈ childrenByParent store i := by
            rw [hP]
            exact List.mem_append.mpr (Or.inl hc')
          have hd1 : m.id = c.id ∨ Reaches (childrenByParent store) c.id m.id := Or.inr hre
          have hd2 : m.id = c'.id ∨ Reaches (childrenByParent store) c'.id m.id := hin
          have hcid := reaches_branch_unique hcr hcu hcC hc'C hd1 hd2
          have : c = c' := nodup_id_inj hnodup (mem_childrenByParent.mp hcC).1
            (mem_childrenByParent.mp hc'C).1 hcid
          exact hcP (this ▸ hc')
        rw [List.foldl_cons]
        rw [ih (store.filter (fun n => decide (¬∃ c' ∈ P, InSubtree store c'.id n))) c.id
          (nodup_ids_filter hnodup _)
          (fun n hn => hrank n (List.mem_filter.mp hn).1)
          (fun n hn => hbound n (List.mem_filter.mp hn).1)
          (by
            have := hcr i c hcC
            omega)]
        rw [List.filter_filter]
        have hstep : store.filter (fun n =>
              decide (¬InSubtree
                  (store.filter (fun n => decide (¬∃ c' ∈ P, InSubtree store c'.id n))) c.id n)
                && decide (¬∃ c' ∈ P, InSubtree store c'.id n))
            = store.filter (fun n => decide (¬∃ c' ∈ P ++ [c], InSubtree store c'.id n)) := by
          apply List.filter_congr
          intro n hn
          by_cases hP1 : ∃ c' ∈ P, InSubtree store c'.id n
          · have hboth : ∃ c' ∈ P ++ [c], InSubtree store c'.id n := by
              rcases hP1 with ⟨c', hc', hin⟩
              exact ⟨c', List.mem_append.mpr (Or.inl hc'), hin⟩
            have e1 : decide (¬∃ c' ∈ P, InSubtree store c'.id n) = false := by
              rw [decide_eq_false_iff_not, not_not]
              exact hP1
            have e2 : decide (¬∃ c' ∈ P ++ [c], InSubtree store c'.id n) = false := by
              rw [decide_eq_false_iff_not, not_not]
              exact hboth
            rw [e1, e2, Bool.and_false]
          · have hiff : InSubtree
                (store.filter (fun n => decide (¬∃ c' ∈ P, InSubtree store c'.id n))) c.id n
                ↔ InSubtree store c.id n := by
              unfold InSubtree
              constructor
              · rintro (h | h)
                · exact Or.inl h
                · exact Or.inr (reaches_filter_mono h)
              · rintro (h | h)
                · exact Or.inl h
                · refine Or.inr ?_
                  rcases h with ⟨k, hk⟩
                  exact ⟨k, reachN_filter_of_keep hk hkeep⟩
            have hsplit : (∃ c' ∈ P ++ [c], InSubtree store c'.id n)
                ↔ InSubtree store c.id n := by
              constructor
              · rintro ⟨c', hc', hin⟩
                rcases List.mem_append.mp hc' with h | h
                · exact absurd ⟨c', h, hin⟩ hP1
                · have : c' = c := by simpa using h
                  exact this ▸ hin
              · intro h
                exact ⟨c, List.mem_append.mpr (Or.inr (by simp)), h⟩
            have e1 : decide (¬∃ c' ∈ P, InSubtree store c'.id n) = true := by
              rw [decide_eq_true_eq]
              exact hP1
            rw [e1, Bool.and_true]
            exact decide_eq_decide.mpr (not_congr (hiff.trans hsplit.symm))
        rw [hstep]
        have hP2 : childrenByParent store i = (P ++ [c]) ++ C3 := by
          rw [hP, List.append_assoc]
          rfl
        have := ihC (P ++ [c]) hP2
        rw [List.append_assoc] at this
        exact this
    have hstart : store.filter
        (fun n => decide (¬∃ c ∈ ([] : List Node), InSubtree store c.id n)) = store := by
      rw [List.filter_eq_self]
      intro n _
      simp
    have hfold := fold_eq (childrenByParent store i) [] (by rw [List.nil_append])
    rw [hstart, List.nil_append] at hfold
    rw [hfold]
    unfold deleteOneById
    rw [eraseP_eq_filter_of_unique _ _
      (((hnodup.of_map).filter _))
      (fun a ha b hb hpa hpb => nodup_id_inj hnodup
        (List.mem_filter.mp ha).1 (List.mem_filter.mp hb).1
        (by
          have h1 : a.id = i := by simpa using hpa
          have h2 : b.id = i := by simpa using hpb
          rw [h1, h2]))]
    rw [List.filter_filter]
    apply List.filter_congr
    intro n hn
    have hbeq : (n.id == i) = decide (n.id = i) := by
      by_cases h : n.id = i <;> simp [h]
    rw [hbeq, ← decide_not, ← Bool.decide_and]
    apply decide_eq_decide.mpr
    rw [show InSubtree store i n ↔
        (n.id = i ∨ ∃ c ∈ childrenByParent store i, InSubtree store c.id n) from insubtree_head]
    exact not_or.symm

/-! ## C1 — cascade delete removes exactly the subtree -/

/-- C1 amended: on a store with globally pairwise-distinct ids — strictly
more than the per-`(projectId, id)` uniqueness the schema index enforces —
and an acyclic parent relation (certified by a parent-increasing `rank`
bounded by the store size), the
cascade deletion of `DELETE /api/node/:id` removes exactly N + 1 records
for a stored node with N transitive descendants: the collected descendant
ids are exactly the transitive-descendant ids, without duplicates and
without the node itself, the store shrinks by their number plus one, no
remaining record's `parentId` refers to the deleted id or to any removed
descendant id, and the first registered handler's children-first recursive
deletion produces exactly the same store as the transactional cascade. -/
theorem deleteNode_cascade_exact (store : List Node) (node0 : Node) (rank : String → Nat)
    (hmem : node0 ∈ store)
    (hnodup : (store.map Node.id).Nodup)
    (hrank : ∀ n ∈ store, rankOk rank n = true)
    (hbound : ∀ n ∈ store, rank n.id < store.length) :
    (∀ d, d ∈ collectDescendants store store.length node0.id ↔
        Reaches (childrenByParent store) node0.id d) ∧
    (collectDescendants store store.length node0.id).Nodup ∧
    node0.id ∉ collectDescendants store store.length node0.id ∧
    store.length = (deleteNodeCascade store node0.id).length +
      ((collectDescendants store store.length node0.id).length + 1) ∧
    (∀ n ∈ deleteNodeCascade store node0.id, ∀ p, n.parentId = some p →
      p ≠ node0.id ∧ p ∉ collectDescendants store store.length node0.id) ∧
    deleteNodeFirst store node0.id = .ok (deleteNodeCascade store node0.id) := by
  have hcr := childrenByParent_rank hrank
  have hiff : ∀ d, d ∈ collectDescendants store store.length node0.id ↔
      Reaches (childrenByParent store) node0.id d :=
    fun _ => mem_collectDescendants_iff hrank hbound
  have hnd : (collectDescendants store store.length node0.id).Nodup :=
    collectDescendants_nodup hrank hnodup _ _
  have hself : node0.id ∉ collectDescendants store store.length node0.id := fun h =>
    reaches_irrefl hcr ((hiff _).mp h)
  have hRnd : (node0.id :: collectDescendants store store.length node0.id).Nodup :=
    List.nodup_cons.mpr ⟨hself, hnd⟩
  have hsub : ∀ a ∈ node0.id :: collectDescendants store store.length node0.id,
      a ∈ store.map Node.id := by
    intro a ha
    rcases List.mem_cons.mp ha with rfl | ha
    · exact List.mem_map.mpr ⟨node0, hmem, rfl⟩
    · rcases reaches_target_mem ((hiff a).mp ha) with ⟨n, hn, hid⟩
      exact List.mem_map.mpr ⟨n, hn, hid⟩
  refine ⟨hiff, hnd, hself, ?_, ?_, ?_⟩
  · have hmapf :
        (store.filter (fun n =>
            n.id ∈ node0.id :: collectDescendants store store.length node0.id)).map Node.id
          = (store.map Node.id).filter (fun a =>
            a ∈ node0.id :: collectDescendants store store.length node0.id) := by
      rw [List.filter_map]
      rfl
    have hperm :
        List.Perm
          ((store.map Node.id).filter (fun a =>
            a ∈ node0.id :: collectDescendants store store.length node0.id))
          (node0.id :: collectDescendants store store.length node0.id) := by
      apply List.perm_iff_count.mpr
      intro a
      by_cases ha : a ∈ node0.id :: collectDescendants store store.length node0.id
      · rw [List.count_filter (by simpa using ha),
          List.count_eq_one_of_mem hnodup (hsub a ha), List.count_eq_one_of_mem hRnd ha]
      · rw [List.count_eq_zero.mpr, List.count_eq_zero.mpr ha]
        intro h
        exact ha (by simpa using (List.mem_filter.mp h).2)
    have hkey :
        (store.filter (fun n =>
            n.id ∈ node0.id :: collectDescendants store store.length node0.id)).length
          = (collectDescendants store store.length node0.id).length + 1 := by
      have h1 := congrArg List.length hmapf
      rw [List.length_map] at h1
      rw [h1, hperm.length_eq, List.length_cons]
    have hpart := List.length_eq_length_filter_add (l := store)
      (fun n => decide (n.id ∈ node0.id :: collectDescendants store store.length node0.id))
    have hres : deleteNodeCascade store node0.id
        = store.filter (fun n =>
            !(decide (n.id ∈ node0.id :: collectDescendants store store.length node0.id))) := by
      unfold deleteNodeCascade
      simp only [decide_not]
    rw [hres]
    omega
  · intro n hn p hp
    have hnm := mem_deleteNodeCascade.mp hn
    constructor
    · rintro rfl
      have hchild : n ∈ childrenByParent store node0.id :=
        mem_childrenByParent.mpr ⟨hnm.1, hp⟩
      exact hnm.2 (List.mem_cons_of_mem _ ((hiff _).mpr ⟨1, .child hchild⟩))
    · intro hpD
      have hchild : n ∈ childrenByParent store p := mem_childrenByParent.mpr ⟨hnm.1, hp⟩
      exact hnm.2 (List.mem_cons_of_mem _
        ((hiff _).mpr (reaches_snoc ((hiff p).mp hpD) hchild)))
  · have hsome : (store.find? (fun n => n.id == node0.id)).isSome :=
      List.find?_isSome.mpr ⟨node0, hmem, by simp⟩
    rcases Option.isSome_iff_exists.mp hsome with ⟨v, hv⟩
    have h1 : deleteNodeFirst store node0.id
        = .ok (deleteNodeAndChildren store.length store node0.id) := by
      unfold deleteNodeFirst
      rw [hv]
    have h2 : deleteNodeAndChildren store.length store node0.id
        = deleteNodeCascade store node0.id := by
      rw [deleteNodeAndChildren_eq_filter store.length store node0.id hnodup hrank hbound
        (by omega)]
      show _ = List.filter
        (fun n =>
          decide (n.id ∉ node0.id :: collectDescendants store store.length node0.id))
        store
      apply List.filter_congr
      intro n hn
      apply decide_eq_decide.mpr
      apply not_congr
      unfold InSubtree
      rw [List.mem_cons]
      constructor
      · rintro (h | h)
        · exact Or.inl h
        · exact Or.inr ((mem_collectDescendants_iff hrank hbound).mpr h)
      · rintro (h | h)
        · exact Or.inl h
        · exact Or.inr ((mem_collectDescendants_iff hrank hbound).mp h)
    rw [h1, h2]

/-- Depth rank for the demo store, certifying its acyclicity. -/
def demoRank (s : String) : Nat :=
  if s = "root-demo" then 0 else if s = "src-folder" then 1 else 2

theorem deleteNode_cascade_exact_witness :
    (∀ d, d ∈ collectDescendants demoStore demoStore.length rootDemo.id ↔
        Reaches (childrenByParent demoStore) rootDemo.id d) ∧
    (collectDescendants demoStore demoStore.length rootDemo.id).Nodup ∧
    rootDemo.id ∉ collectDescendants demoStore demoStore.length rootDemo.id ∧
    demoStore.length = (deleteNodeCascade demoStore rootDemo.id).length +
      ((collectDescendants demoStore demoStore.length rootDemo.id).length + 1) ∧
    (∀ n ∈ deleteNodeCascade demoStore rootDemo.id, ∀ p, n.parentId = some p →
      p ≠ rootDemo.id ∧ p ∉ collectDescendants demoStore demoStore.length rootDemo.id) ∧
    deleteNodeFirst demoStore rootDemo.id = .ok (deleteNodeCascade demoStore rootDemo.id) :=
  deleteNode_cascade_exact demoStore rootDemo demoRank (by decide) (by decide)
    (by decide) (by decide)

/-- C1 counterexample data: a spec-legal store — ids unique per
`(projectId, id)` as the schema index requires, acyclic, without dangling
parents — in which the two projects reuse the id `"x"`.  Both `DELETE`
handlers match by `id` alone. -/
def r2Node : Node :=
  { id := "r2", projectId := "p2", type := "folder", name := "R2", content := "",
    parentId := none, x := 0, y := 0, expanded := false, size := 0, lineCount := 0,
    language := "" }

def cDup : Node :=
  { id := "x", projectId := "p2", type := "folder", name := "C", content := "",
    parentId := some "r2", x := 0, y := 0, expanded := false, size := 0, lineCount := 0,
    language := "" }

def aNode : Node :=
  { id := "a", projectId := "p1", type := "folder", name := "A", content := "",
    parentId := none, x := 0, y := 0, expanded := false, size := 0, lineCount := 0,
    language := "" }

def bDup : Node :=
  { id := "x", projectId := "p1", type := "folder", name := "B", content := "",
    parentId := some "a", x := 0, y := 0, expanded := false, size := 0, lineCount := 0,
    language := "" }

def c1Store : List Node := [r2Node, cDup, aNode, bDup]

def c1Rank (s : String) : Nat := if s = "x" then 1 else 0

/-- C1 counterexample: the store is spec-legal (per-project-unique ids,
acyclic, no dangling parents) and `"a"` has exactly one transitive
descendant, `bDup`; yet the operative first handler deletes the OTHER
project's record `cDup` and keeps `bDup`, whose `parentId` is left pointing
at the removed node, while the second handler's cascade also erases `cDup`
(three records for one descendant).  The claim fails on stores it
quantifies over: id uniqueness is only per project. -/
theorem deleteNode_cross_project_counterexample :
    (c1Store.map (fun n => (n.projectId, n.id))).Nodup ∧
    (∀ n ∈ c1Store, rankOk c1Rank n = true) ∧
    (∀ n ∈ c1Store, n.parentId = none ∨ ∃ m ∈ c1Store, n.parentId = some m.id) ∧
    bDup ∈ childrenByParent c1Store aNode.id ∧
    deleteNodeFirst c1Store aNode.id = .ok [r2Node, bDup] ∧
    bDup.parentId = some aNode.id ∧
    aNode.id ∉ ([r2Node, bDup].map Node.id) ∧
    cDup.projectId ≠ aNode.projectId ∧
    deleteNodeCascade c1Store aNode.id = [r2Node] := by
  refine ⟨by decide, by decide, by decide, by decide, by decide, by decide, by decide,
    by decide, by decide⟩

/-! ## Structural helpers on assembled hierarchies -/

mutual

/-- All subtree occurrences of a tree, the tree itself included. -/
def subtreesOfTree : TreeNode → List TreeNode
  | .mk d cs => .mk d cs :: subtreesOfForest cs

def subtreesOfForest : List TreeNode → List TreeNode
  | [] => []
  | t :: ts => subtreesOfTree t ++ subtreesOfForest ts

end

mutual

/-- Depth of a tree (a leaf has depth 1). -/
def depthTree : TreeNode → Nat
  | .mk _ cs => depthForest cs + 1

def depthForest : List TreeNode → Nat
  | [] => 0
  | t :: ts => max (depthTree t) (depthForest ts)

end

mutual

/-- A hierarchy is good when every node that has children carries a
non-empty id — `buildHierarchy` only ever attaches children to truthy ids,
so its output is always good. -/
def goodTree : TreeNode → Bool
  | .mk d cs => (cs.isEmpty || !(d.id == "")) && goodForest cs

def goodForest : List TreeNode → Bool
  | [] => true
  | t :: ts => goodTree t && goodForest ts

end

theorem TreeNode.data_mk (d : Node) (cs : List TreeNode) : (TreeNode.mk d cs).data = d := rfl

theorem shapeOfForest_eq_map : ∀ ts : List TreeNode, shapeOfForest ts = ts.map shapeOfTree
  | [] => rfl
  | t :: ts => by rw [shapeOfForest, List.map_cons, shapeOfForest_eq_map ts]

theorem preorderForest_append : ∀ ts us : List TreeNode,
    preorderForest (ts ++ us) = preorderForest ts ++ preorderForest us
  | [], us => rfl
  | t :: ts, us => by
    rw [List.cons_append, preorderForest, preorderForest, preorderForest_append ts us,
      List.append_assoc]

theorem mem_preorderForest_map {f : Node → TreeNode} {m : Node} :
    ∀ {cs : List Node}, m ∈ preorderForest (cs.map f) ↔ ∃ c ∈ cs, m ∈ preorderTree (f c) := by
  intro cs
  induction cs with
  | nil => simp [preorderForest]
  | cons c cs ih =>
    rw [List.map_cons, preorderForest, List.mem_append, ih]
    constructor
    · rintro (h | ⟨c', hc', h⟩)
      · exact ⟨c, by simp, h⟩
      · exact ⟨c', by simp [hc'], h⟩
    · rintro ⟨c', hc', h⟩
      rcases List.mem_cons.mp hc' with rfl | hc2
      · exact Or.inl h
      · exact Or.inr ⟨c', hc2, h⟩

mutual

theorem mem_preorderTree_iff : ∀ (t : TreeNode) (m : Node),
    m ∈ preorderTree t ↔ ∃ u ∈ subtreesOfTree t, u.data = m
  | .mk d cs, m => by
    rw [preorderTree, subtreesOfTree]
    constructor
    · intro h
      rcases List.mem_cons.mp h with rfl | h
      · exact ⟨.mk m cs, by simp, rfl⟩
      · rcases (mem_preorderForest_iff cs m).mp h with ⟨u, hu, hd⟩
        exact ⟨u, by simp [hu], hd⟩
    · rintro ⟨u, hu, hd⟩
      rcases List.mem_cons.mp hu with rfl | hu
      · exact List.mem_cons.mpr (Or.inl hd.symm)
      · exact List.mem_cons_of_mem _ ((mem_preorderForest_iff cs m).mpr ⟨u, hu, hd⟩)

theorem mem_preorderForest_iff : ∀ (ts : List TreeNode) (m : Node),
    m ∈ preorderForest ts ↔ ∃ u ∈ subtreesOfForest ts, u.data = m
  | [], m => by simp [preorderForest, subtreesOfForest]
  | t :: ts, m => by
    rw [preorderForest, subtreesOfForest, List.mem_append]
    rw [mem_preorderTree_iff t m, mem_preorderForest_iff ts m]
    constructor
    · rintro (⟨u, hu, hd⟩ | ⟨u, hu, hd⟩)
      · exact ⟨u, List.mem_append.mpr (Or.inl hu), hd⟩
      · exact ⟨u, List.mem_append.mpr (Or.inr hu), hd⟩
    · rintro ⟨u, hu, hd⟩
      rcases List.mem_append.mp hu with h | h
      · exact Or.inl ⟨u, h, hd⟩
      · exact Or.inr ⟨u, h, hd⟩

end

theorem self_mem_subtreesOfTree : ∀ t : TreeNode, t ∈ subtreesOfTree t
  | .mk _ cs => by rw [subtreesOfTree]; simp

theorem self_mem_subtreesOfForest : ∀ (ts : List TreeNode), ∀ t ∈ ts, t ∈ subtreesOfForest ts
  | t :: ts, u, hu => by
    rw [subtreesOfForest, List.mem_append]
    rcases List.mem_cons.mp hu with rfl | hu
    · exact Or.inl (self_mem_subtreesOfTree u)
    · exact Or.inr (self_mem_subtreesOfForest ts u hu)

mutual

theorem subtrees_closed_tree : ∀ (t u : TreeNode), u ∈ subtreesOfTree t →
    ∀ c ∈ u.children, c ∈ subtreesOfTree t
  | .mk d cs, u, hu, c, hc => by
    rw [subtreesOfTree] at hu ⊢
    rcases List.mem_cons.mp hu with rfl | hu
    · exact List.mem_cons_of_mem _ (self_mem_subtreesOfForest cs c hc)
    · exact List.mem_cons_of_mem _ (subtrees_closed_forest cs u hu c hc)

theorem subtrees_closed_forest : ∀ (ts : List TreeNode) (u : TreeNode),
    u ∈ subtreesOfForest ts → ∀ c ∈ u.children, c ∈ subtreesOfForest ts
  | t :: ts, u, hu, c, hc => by
    rw [subtreesOfForest, List.mem_append] at hu ⊢
    rcases hu with hu | hu
    · exact Or.inl (subtrees_closed_tree t u hu c hc)
    · exact Or.inr (subtrees_closed_forest ts u hu c hc)

end

theorem depthTree_le_depthForest : ∀ (ts : List TreeNode), ∀ t ∈ ts, depthTree t ≤ depthForest ts
  | t :: ts, u, hu => by
    rw [depthForest]
    rcases List.mem_cons.mp hu with rfl | hu
    · omega
    · have := depthTree_le_depthForest ts u hu
      omega

mutual

theorem depthTree_le_preorder : ∀ t : TreeNode, depthTree t ≤ (preorderTree t).length
  | .mk d cs => by
    rw [depthTree, preorderTree, List.length_cons]
    have := depthForest_le_preorder cs
    omega

theorem depthForest_le_preorder : ∀ ts : List TreeNode,
    depthForest ts ≤ (preorderForest ts).length
  | [] => by rw [depthForest]; omega
  | t :: ts => by
    rw [depthForest, preorderForest, List.length_append]
    have h1 := depthTree_le_preorder t
    have h2 := depthForest_le_preorder ts
    omega

end

mutual

theorem good_subtree_tree : ∀ t : TreeNode, goodTree t = true →
    ∀ u ∈ subtreesOfTree t, goodTree u = true
  | .mk d cs, hg, u, hu => by
    rw [subtreesOfTree] at hu
    rcases List.mem_cons.mp hu with rfl | hu
    · exact hg
    · rw [goodTree, Bool.and_eq_true] at hg
      exact good_subtree_forest cs hg.2 u hu

theorem good_subtree_forest : ∀ ts : List TreeNode, goodForest ts = true →
    ∀ u ∈ subtreesOfForest ts, goodTree u = true
  | t :: ts, hg, u, hu => by
    rw [goodForest, Bool.and_eq_true] at hg
    rw [subtreesOfForest, List.mem_append] at hu
    rcases hu with hu | hu
    · exact good_subtree_tree t hg.1 u hu
    · exact good_subtree_forest ts hg.2 u hu

end

theorem stampNode_id (pid : String) (par : Option String) (d : Node) :
    (stampNode pid par d).id = d.id := by
  unfold stampNode
  split <;> rfl

theorem stampNode_parentId (pid : String) (par : Option String) (d : Node) :
    (stampNode pid par d).parentId = par := by
  unfold stampNode
  split <;> rfl

mutual

theorem flattenTreeNode_map_id : ∀ (pid : String) (par : Option String) (t : TreeNode),
    (flattenTreeNode pid par t).map Node.id = (preorderTree t).map Node.id
  | pid, par, .mk d cs => by
    rw [flattenTreeNode, preorderTree, List.map_cons, List.map_cons, stampNode_id,
      flattenTree_map_id pid (some d.id) cs]

theorem flattenTree_map_id : ∀ (pid : String) (par : Option String) (ts : List TreeNode),
    (flattenTree pid ts par).map Node.id = (preorderForest ts).map Node.id
  | _, _, [] => rfl
  | pid, par, t :: ts => by
    rw [flattenTree, preorderForest, List.map_append, List.map_append,
      flattenTreeNode_map_id pid par t, flattenTree_map_id pid par ts]

end

/-! ## Attachment-relation lemmas for `buildHierarchy` -/

theorem attachTarget_some {nodes : List Node} {n : Node} {p : String}
    (h : attachTarget nodes n = some p) :
    n.parentId = some p ∧ p ≠ "" ∧ nodes.any (fun m => m.id == p) = true := by
  unfold attachTarget at h
  split at h
  next => exact absurd h (by simp)
  next s hpar =>
    split at h
    next hc =>
      injection h with h
      subst h
      exact ⟨hpar, hc.1, by simpa using hc.2⟩
    next => exact absurd h (by simp)

theorem attachTarget_eq_some {nodes : List Node} {n : Node} {p : String}
    (hp : n.parentId = some p) (hne : p ≠ "")
    (hpres : nodes.any (fun m => m.id == p) = true) : attachTarget nodes n = some p := by
  unfold attachTarget
  rw [hp]
  exact if_pos ⟨hne, by simpa using hpres⟩

theorem attachTarget_ne_some_empty {nodes : List Node} {n : Node} :
    attachTarget nodes n ≠ some "" := by
  intro h
  exact (attachTarget_some h).2.1 rfl

theorem attachTarget_of_parentId_none {nodes : List Node} {n : Node}
    (h : n.parentId = none) : attachTarget nodes n = none := by
  unfold attachTarget
  rw [h]


theorem mem_childEntries {nodes : List Node} {i : String} {m : Node} :
    m ∈ childEntries nodes i ↔ m ∈ nodes ∧ attachTarget nodes m = some i := by
  simp [childEntries]

theorem mem_rootEntries {nodes : List Node} {m : Node} :
    m ∈ rootEntries nodes ↔ m ∈ nodes ∧ attachTarget nodes m = none := by
  simp [rootEntries]

theorem childEntries_rank {nodes : List Node} {rank : String → Nat}
    (hrank : ∀ n ∈ nodes, rankOk rank n = true) :
    ∀ i, ∀ n ∈ childEntries nodes i, rank i < rank n.id := by
  intro i n hn
  rcases mem_childEntries.mp hn with ⟨hm, ha⟩
  exact rankOk_lt (hrank n hm) (attachTarget_some ha).1

theorem childEntries_up {nodes : List Node} (hnodup : (nodes.map Node.id).Nodup) :
    ∀ q1 q2 (n1 n2 : Node), n1 ∈ childEntries nodes q1 →
      n2 ∈ childEntries nodes q2 → n1.id = n2.id → q1 = q2 := by
  intro q1 q2 n1 n2 h1 h2 hid
  rcases mem_childEntries.mp h1 with ⟨hm1, ha1⟩
  rcases mem_childEntries.mp h2 with ⟨hm2, ha2⟩
  have heq := nodup_id_inj hnodup hm1 hm2 hid
  subst heq
  rw [ha1] at ha2
  exact Option.some.inj ha2

theorem reaches_target_mem_build {nodes : List Node} {r d : String}
    (h : Reaches (childEntries nodes) r d) : ∃ n ∈ nodes, n.id = d := by
  rcases reaches_last h with ⟨q, n, hn, hid, _⟩
  exact ⟨n, (mem_childEntries.mp hn).1, hid⟩

theorem resolve_eq_self {nodes : List Node} (hnodup : (nodes.map Node.id).Nodup)
    {n : Node} (hn : n ∈ nodes) : resolve nodes n = n := by
  unfold resolve
  have hmem : n ∈ nodes.filter (fun m => m.id = n.id) := List.mem_filter.mpr ⟨hn, by simp⟩
  have hne : nodes.filter (fun m => m.id = n.id) ≠ [] := List.ne_nil_of_mem hmem
  rw [List.getLast?_eq_getLast _ hne]
  have hlmem := List.getLast_mem hne
  have hsplit := List.mem_filter.mp hlmem
  have heq : (nodes.filter (fun m => m.id = n.id)).getLast hne = n :=
    nodup_id_inj hnodup hsplit.1 hn (by simpa using hsplit.2)
  rw [heq]
  rfl

theorem buildSubtree_data (nodes : List Node) :
    ∀ fuel (n : Node), (buildSubtree nodes fuel n).data = n
  | 0, _ => rfl
  | _ + 1, _ => rfl

/-- With distinct ids the `resolve` indirection disappears: the children of
a node's occurrence are the child entries themselves. -/
theorem buildSubtree_succ {nodes : List Node} (hnodup : (nodes.map Node.id).Nodup)
    (fuel : Nat) (n : Node) :
    buildSubtree nodes (fuel + 1) n
      = .mk n ((childEntries nodes n.id).map (buildSubtree nodes fuel)) := by
  rw [buildSubtree]
  congr 1
  apply List.map_congr_left
  intro m hm
  rw [resolve_eq_self hnodup (mem_childEntries.mp hm).1]

theorem buildHierarchy_eq {nodes : List Node} (hnodup : (nodes.map Node.id).Nodup) :
    buildHierarchy nodes = (rootEntries nodes).map (buildSubtree nodes nodes.length) := by
  unfold buildHierarchy
  apply List.map_congr_left
  intro m hm
  rw [resolve_eq_self hnodup (mem_rootEntries.mp hm).1]

/-! ## Conservation of nodes through `buildHierarchy` -/

theorem count_preorderForest_map {f : Node → TreeNode} {x : Node} :
    ∀ {cs : List Node},
      (preorderForest (cs.map f)).count x
        = (cs.map (fun c => (preorderTree (f c)).count x)).sum := by
  intro cs
  induction cs with
  | nil => simp [preorderForest]
  | cons c cs ih =>
    rw [List.map_cons, preorderForest, List.count_append, ih, List.map_cons, List.sum_cons]

theorem mem_subtreesOfForest_map {f : Node → TreeNode} {u : TreeNode} :
    ∀ {cs : List Node}, u ∈ subtreesOfForest (cs.map f) ↔ ∃ c ∈ cs, u ∈ subtreesOfTree (f c) := by
  intro cs
  induction cs with
  | nil => simp [subtreesOfForest]
  | cons c cs ih =>
    rw [List.map_cons, subtreesOfForest, List.mem_append, ih]
    constructor
    · rintro (h | ⟨c', hc', h⟩)
      · exact ⟨c, by simp, h⟩
      · exact ⟨c', by simp [hc'], h⟩
    · rintro ⟨c', hc', h⟩
      rcases List.mem_cons.mp hc' with rfl | hc2
      · exact Or.inl h
      · exact Or.inr ⟨c', hc2, h⟩

theorem sum_map_eq_one (g : Node → Nat) :
    ∀ cs : List Node, cs.Nodup → ∀ c0 ∈ cs, g c0 = 1 → (∀ c ∈ cs, c ≠ c0 → g c = 0) →
      (cs.map g).sum = 1 := by
  intro cs
  induction cs with
  | nil => intro _ c0 h; cases h
  | cons c cs ih =>
    intro hnd c0 hc0 h1 h0
    rw [List.map_cons, List.sum_cons]
    rcases List.mem_cons.mp hc0 with rfl | hc0'
    · rw [h1]
      have hz : ∀ y ∈ cs.map g, y = 0 := by
        intro y hy
        rcases List.mem_map.mp hy with ⟨c', hc', rfl⟩
        exact h0 c' (by simp [hc']) (fun he => (List.nodup_cons.mp hnd).1 (he ▸ hc'))
      rw [List.sum_eq_zero hz]
      omega
    · have hcc : c ≠ c0 := fun he => (List.nodup_cons.mp hnd).1 (he ▸ hc0')
      rw [h0 c (by simp) hcc,
        ih (List.nodup_cons.mp hnd).2 c0 hc0' h1 (fun c' hc' hne => h0 c' (by simp [hc']) hne)]

theorem mem_preorder_buildSubtree {nodes : List Node} (hnodup : (nodes.map Node.id).Nodup) :
    ∀ fuel (n : Node), n ∈ nodes → ∀ m ∈ preorderTree (buildSubtree nodes fuel n), m ∈ nodes := by
  intro fuel
  induction fuel with
  | zero =>
    intro n hn m hm
    rcases List.mem_cons.mp hm with rfl | hm
    · exact hn
    · simp [preorderForest] at hm
  | succ fuel ih =>
    intro n hn m hm
    rw [buildSubtree_succ hnodup, preorderTree] at hm
    rcases List.mem_cons.mp hm with rfl | hm
    · exact hn
    · rcases mem_preorderForest_map.mp hm with ⟨c, hc, hm'⟩
      exact ih c (mem_childEntries.mp hc).1 m hm'

open Classical in
/-- Core counting argument: on a distinct-id, acyclic store, the subtree of
`buildHierarchy`'s object graph below a node `n` lists each store node
exactly once when `n` attaches it transitively, and not at all otherwise. -/
theorem count_buildSubtree {nodes : List Node} {rank : String → Nat} {L : Nat}
    (hnodup : (nodes.map Node.id).Nodup)
    (hrank : ∀ i, ∀ n ∈ childEntries nodes i, rank i < rank n.id)
    (hbound : ∀ n ∈ nodes, rank n.id < L)
    (x : Node) (hx : x ∈ nodes) :
    ∀ fuel (n : Node), n ∈ nodes → L ≤ rank n.id + fuel →
      (preorderTree (buildSubtree nodes fuel n)).count x
        = if x = n ∨ Reaches (childEntries nodes) n.id x.id then 1 else 0 := by
  have hcr := hrank
  have hcu := childEntries_up hnodup
  intro fuel
  induction fuel with
  | zero =>
    intro n hn hf
    exact absurd (hbound n hn) (by omega)
  | succ fuel ih =>
    intro n hn hf
    rw [buildSubtree_succ hnodup, preorderTree]
    have hchild_mem : ∀ c ∈ childEntries nodes n.id, c ∈ nodes :=
      fun c hc => (mem_childEntries.mp hc).1
    have hchild_fuel : ∀ c ∈ childEntries nodes n.id, L ≤ rank c.id + fuel := by
      intro c hc
      have := hcr n.id c hc
      omega
    have hchild_nodup : (childEntries nodes n.id).Nodup := (hnodup.of_map).filter _
    by_cases hxn : x = n
    · subst hxn
      rw [List.count_cons_self, count_preorderForest_map]
      have hz : ∀ y ∈ (childEntries nodes x.id).map
          (fun c => (preorderTree (buildSubtree nodes fuel c)).count x), y = 0 := by
        intro y hy
        rcases List.mem_map.mp hy with ⟨c, hc, rfl⟩
        rw [ih c (hchild_mem c hc) (hchild_fuel c hc), if_neg]
        rintro (rfl | hreach)
        · exact absurd (hcr x.id x hc) (by omega)
        · have h1 := hcr x.id c hc
          have h2 := reaches_rank hcr hreach
          omega
      rw [List.sum_eq_zero hz, if_pos (Or.inl rfl)]
    · rw [List.count_cons_of_ne hxn, count_preorderForest_map]
      by_cases hreach : Reaches (childEntries nodes) n.id x.id
      · rw [if_pos (Or.inr hreach)]
        rcases reaches_head hreach with ⟨c0, hc0, hcov⟩
        have hcov' : x = c0 ∨ Reaches (childEntries nodes) c0.id x.id := by
          rcases hcov with h | h
          · exact Or.inl (nodup_id_inj hnodup hx (hchild_mem c0 hc0) h)
          · exact Or.inr h
        apply sum_map_eq_one _ _ hchild_nodup c0 hc0
        · rw [ih c0 (hchild_mem c0 hc0) (hchild_fuel c0 hc0), if_pos hcov']
        · intro c hc hne
          rw [ih c (hchild_mem c hc) (hchild_fuel c hc), if_neg]
          intro hcond
          have hd1 : x.id = c.id ∨ Reaches (childEntries nodes) c.id x.id := by
            rcases hcond with rfl | hr
            · exact Or.inl rfl
            · exact Or.inr hr
          have hcid : c.id = c0.id := reaches_branch_unique hcr hcu hc hc0 hd1 hcov
          exact hne (nodup_id_inj hnodup (hchild_mem c hc) (hchild_mem c0 hc0) hcid)
      · rw [if_neg (fun hcond => hcond.elim hxn hreach)]
        have hz : ∀ y ∈ (childEntries nodes n.id).map
            (fun c => (preorderTree (buildSubtree nodes fuel c)).count x), y = 0 := by
          intro y hy
          rcases List.mem_map.mp hy with ⟨c, hc, rfl⟩
          rw [ih c (hchild_mem c hc) (hchild_fuel c hc), if_neg]
          rintro (rfl | hr)
          · exact hreach ⟨1, .child hc⟩
          · exact hreach (reaches_trans ⟨1, .child hc⟩ hr)
        rw [List.sum_eq_zero hz]

theorem root_cover {nodes : List Node} {rank : String → Nat}
    (hrank : ∀ i, ∀ n ∈ childEntries nodes i, rank i < rank n.id) :
    ∀ N (x : Node), x ∈ nodes → rank x.id < N →
      ∃ r ∈ rootEntries nodes, x = r ∨ Reaches (childEntries nodes) r.id x.id := by
  intro N
  induction N with
  | zero => intro x _ hN; omega
  | succ N ih =>
    intro x hx hN
    cases hat : attachTarget nodes x with
    | none => exact ⟨x, mem_rootEntries.mpr ⟨hx, hat⟩, Or.inl rfl⟩
    | some p =>
      have hxc : x ∈ childEntries nodes p := mem_childEntries.mpr ⟨hx, hat⟩
      rcases attachTarget_some hat with ⟨_, _, hpres⟩
      rcases List.any_eq_true.mp hpres with ⟨q, hq, hqid⟩
      have hqid2 : q.id = p := by simpa using hqid
      have hrankpx : rank p < rank x.id := hrank p x hxc
      have hqN : rank q.id < N := by rw [hqid2]; omega
      rcases ih q hq hqN with ⟨r, hr, hcov⟩
      refine ⟨r, hr, Or.inr ?_⟩
      have hxc2 : x ∈ childEntries nodes q.id := by rw [hqid2]; exact hxc
      rcases hcov with rfl | hrq
      · exact ⟨1, .child hxc2⟩
      · exact reaches_snoc hrq hxc2

theorem root_not_reached {nodes : List Node} (hnodup : (nodes.map Node.id).Nodup)
    {r : Node} (hr : r ∈ rootEntries nodes) {a : String}
    (h : Reaches (childEntries nodes) a r.id) : False := by
  rcases reaches_last h with ⟨q, n, hn, hid, _⟩
  rcases mem_childEntries.mp hn with ⟨hnn, ha⟩
  rcases mem_rootEntries.mp hr with ⟨hrn, hra⟩
  have heq := nodup_id_inj hnodup hnn hrn hid
  subst heq
  rw [hra] at ha
  cases ha

theorem root_cover_unique {nodes : List Node} {rank : String → Nat}
    (hnodup : (nodes.map Node.id).Nodup)
    (hrank : ∀ i, ∀ n ∈ childEntries nodes i, rank i < rank n.id) {x : Node}
    {r1 r2 : Node} (h1 : r1 ∈ rootEntries nodes) (h2 : r2 ∈ rootEntries nodes)
    (hc1 : x = r1 ∨ Reaches (childEntries nodes) r1.id x.id)
    (hc2 : x = r2 ∨ Reaches (childEntries nodes) r2.id x.id) : r1 = r2 := by
  rcases hc1 with rfl | hr1
  · rcases hc2 with rfl | hr2
    · rfl
    · exact absurd (root_not_reached hnodup h1 hr2) not_false
  · rcases hc2 with rfl | hr2
    · exact absurd (root_not_reached hnodup h2 hr1) not_false
    · rcases reaches_linear hrank (childEntries_up hnodup) hr1 hr2
        with h | h | h
      · exact nodup_id_inj hnodup (mem_rootEntries.mp h1).1 (mem_rootEntries.mp h2).1 h
      · exact absurd (root_not_reached hnodup h2 h) not_false
      · exact absurd (root_not_reached hnodup h1 h) not_false

/-- Conservation: assembling the hierarchy visits every store node exactly
once — the preorder listing of the assembled forest is a permutation of the
flat input. -/
theorem preorder_build_perm {nodes : List Node} {rank : String → Nat}
    (hnodup : (nodes.map Node.id).Nodup)
    (hrank : ∀ i, ∀ n ∈ childEntries nodes i, rank i < rank n.id)
    (hbound : ∀ n ∈ nodes, rank n.id < nodes.length) :
    List.Perm (preorderForest (buildHierarchy nodes)) nodes := by
  apply List.perm_iff_count.mpr
  intro x
  rw [buildHierarchy_eq hnodup, count_preorderForest_map]
  by_cases hx : x ∈ nodes
  · rw [List.count_eq_one_of_mem (hnodup.of_map) hx]
    rcases root_cover hrank nodes.length x hx (hbound x hx) with ⟨r0, hr0, hcov⟩
    apply sum_map_eq_one _ _ ((hnodup.of_map).filter _) r0 hr0
    · rw [count_buildSubtree hnodup hrank hbound x hx nodes.length r0
        (mem_rootEntries.mp hr0).1 (by omega), if_pos hcov]
    · intro r hr hne
      rw [count_buildSubtree hnodup hrank hbound x hx nodes.length r
        (mem_rootEntries.mp hr).1 (by omega), if_neg]
      intro hcond
      exact hne (root_cover_unique hnodup hrank hr hr0 hcond hcov)
  · rw [List.count_eq_zero.mpr hx]
    apply List.sum_eq_zero
    intro y hy
    rcases List.mem_map.mp hy with ⟨r, hr, rfl⟩
    apply List.count_eq_zero.mpr
    intro hmem
    exact hx (mem_preorder_buildSubtree hnodup nodes.length r (mem_rootEntries.mp hr).1 x hmem)

/-- No truncation: on an acyclic distinct-id store, every occurrence in the
assembled forest carries exactly the child entries of its id. -/
theorem children_complete_aux {nodes : List Node} {rank : String → Nat} {L : Nat}
    (hnodup : (nodes.map Node.id).Nodup)
    (hrank : ∀ i, ∀ n ∈ childEntries nodes i, rank i < rank n.id)
    (hbound : ∀ n ∈ nodes, rank n.id < L) :
    ∀ fuel (n : Node), n ∈ nodes → L ≤ rank n.id + fuel →
      ∀ t ∈ subtreesOfTree (buildSubtree nodes fuel n),
        t.children.map TreeNode.data = childEntries nodes t.data.id := by
  have hcr := hrank
  intro fuel
  induction fuel with
  | zero =>
    intro n hn hf
    exact absurd (hbound n hn) (by omega)
  | succ fuel ih =>
    intro n hn hf t ht
    rw [buildSubtree_succ hnodup, subtreesOfTree] at ht
    rcases List.mem_cons.mp ht with rfl | ht
    · show ((childEntries nodes n.id).map (buildSubtree nodes fuel)).map TreeNode.data
        = childEntries nodes n.id
      rw [List.map_map]
      have : ∀ c ∈ childEntries nodes n.id,
          (TreeNode.data ∘ buildSubtree nodes fuel) c = id c :=
        fun c _ => buildSubtree_data nodes fuel c
      rw [List.map_congr_left this, List.map_id]
    · rcases mem_subtreesOfForest_map.mp ht with ⟨c, hc, ht'⟩
      have hcm := (mem_childEntries.mp hc).1
      have hcf : L ≤ rank c.id + fuel := by
        have := hcr n.id c hc
        omega
      exact ih c hcm hcf t ht'

theorem children_complete {nodes : List Node} {rank : String → Nat}
    (hnodup : (nodes.map Node.id).Nodup)
    (hrank : ∀ i, ∀ n ∈ childEntries nodes i, rank i < rank n.id)
    (hbound : ∀ n ∈ nodes, rank n.id < nodes.length) :
    ∀ t ∈ subtreesOfForest (buildHierarchy nodes),
      t.children.map TreeNode.data = childEntries nodes t.data.id := by
  intro t ht
  rw [buildHierarchy_eq hnodup] at ht
  rcases mem_subtreesOfForest_map.mp ht with ⟨r, hr, ht'⟩
  exact children_complete_aux hnodup hrank hbound nodes.length r
    (mem_rootEntries.mp hr).1 (by omega) t ht'

/-- Every attached node occurs among the children of its parent's
occurrence in the assembled forest. -/
theorem attached_in_parent_children {nodes : List Node} {rank : String → Nat}
    (hnodup : (nodes.map Node.id).Nodup)
    (hrank : ∀ i, ∀ n ∈ childEntries nodes i, rank i < rank n.id)
    (hbound : ∀ n ∈ nodes, rank n.id < nodes.length) :
    ∀ n ∈ nodes, ∀ p, attachTarget nodes n = some p →
      ∃ t ∈ subtreesOfForest (buildHierarchy nodes),
        t.data.id = p ∧ n ∈ t.children.map TreeNode.data := by
  intro n hn p hat
  rcases attachTarget_some hat with ⟨_, _, hpres⟩
  rcases List.any_eq_true.mp hpres with ⟨q, hq, hqid⟩
  have hqid2 : q.id = p := by simpa using hqid
  have hqmem : q ∈ preorderForest (buildHierarchy nodes) :=
    ((preorder_build_perm hnodup hrank hbound).mem_iff).mpr hq
  rcases (mem_preorderForest_iff _ q).mp hqmem with ⟨t, ht, htd⟩
  refine ⟨t, ht, by rw [htd, hqid2], ?_⟩
  rw [children_complete hnodup hrank hbound t ht, htd, hqid2]
  exact mem_childEntries.mpr ⟨hn, hat⟩

theorem roots_data_eq {nodes : List Node} (hnodup : (nodes.map Node.id).Nodup) :
    (buildHierarchy nodes).map TreeNode.data = rootEntries nodes := by
  rw [buildHierarchy_eq hnodup, List.map_map]
  have : ∀ r ∈ rootEntries nodes,
      (TreeNode.data ∘ buildSubtree nodes nodes.length) r = id r :=
    fun r _ => buildSubtree_data nodes nodes.length r
  rw [List.map_congr_left this, List.map_id]

theorem attachTarget_parent_some {nodes : List Node} {n : Node} {s : String}
    (hpar : n.parentId = some s) :
    attachTarget nodes n
      = if s ≠ "" ∧ nodes.any (fun m => m.id == s) then some s else none := by
  unfold attachTarget
  rw [hpar]

theorem attachTarget_eq_none_iff {nodes : List Node} {n : Node} :
    attachTarget nodes n = none ↔
      n.parentId = none ∨ n.parentId = some "" ∨ (∀ m ∈ nodes, some m.id ≠ n.parentId) := by
  cases hpar : n.parentId with
  | none =>
    rw [attachTarget_of_parentId_none hpar]
    simp
  | some s =>
    rw [attachTarget_parent_some hpar]
    by_cases hs : s = ""
    · subst hs
      rw [if_neg (by simp)]
      simp
    · by_cases hany : nodes.any (fun m => m.id == s) = true
      · rw [if_pos ⟨hs, hany⟩]
        rcases List.any_eq_true.mp hany with ⟨m, hm, hmid⟩
        constructor
        · intro h; cases h
        · rintro (h | h | h)
          · cases h
          · exact absurd (Option.some.inj h) hs
          · exact absurd (by rw [show m.id = s by simpa using hmid]) (h m hm)
      · rw [if_neg (fun hc => hany hc.2)]
        constructor
        · intro _
          refine Or.inr (Or.inr ?_)
          intro m hm he
          apply hany
          apply List.any_eq_true.mpr
          exact ⟨m, hm, by simp [Option.some.inj he]⟩
        · intro _; rfl

/-! ## C10 — buildHierarchy conserves nodes -/

/-- C10 counterexample: two nodes sharing an id (the store only enforces
id uniqueness per project, and `buildHierarchy` serves cross-project reads
too).  The input is dangling-free and acyclic, yet the map's
last-write-wins overwrite drops the first record and duplicates the
second: the first node appears zero times in the returned hierarchy. -/
def dupA : Node :=
  { id := "x", projectId := "p1", type := "folder", name := "A", content := "",
    parentId := none, x := 0, y := 0, expanded := false, size := 0, lineCount := 0,
    language := "" }

def dupB : Node :=
  { id := "x", projectId := "p2", type := "folder", name := "B", content := "",
    parentId := none, x := 0, y := 0, expanded := false, size := 0, lineCount := 0,
    language := "" }

theorem buildHierarchy_duplicate_counterexample :
    dupA ∈ [dupA, dupB] ∧
    (∀ n ∈ [dupA, dupB], n.parentId = none) ∧
    preorderForest (buildHierarchy [dupA, dupB]) = [dupB, dupB] ∧
    (preorderForest (buildHierarchy [dupA, dupB])).count dupA = 0 := by
  refine ⟨by decide, by decide, by decide, by decide⟩

/-- C10 amended: provided the flat list has pairwise-distinct ids and an
acyclic parent relation (dangling parent references remain allowed), every
input node appears exactly once in the assembled hierarchy — the preorder
listing of the forest is a permutation of the input, the roots are exactly
the nodes the attachment rule leaves unattached (null, empty or dangling
`parentId`), in input order, and every attached node appears among the
children of its parent's occurrence. -/
theorem buildHierarchy_conserves_nodes (nodes : List Node) (rank : String → Nat)
    (hnodup : (nodes.map Node.id).Nodup)
    (hrank : ∀ n ∈ nodes, rankOk rank n = true)
    (hbound : ∀ n ∈ nodes, rank n.id < nodes.length) :
    List.Perm (preorderForest (buildHierarchy nodes)) nodes ∧
    (∀ x ∈ nodes, (preorderForest (buildHierarchy nodes)).count x = 1) ∧
    (buildHierarchy nodes).map TreeNode.data = rootEntries nodes ∧
    (∀ n ∈ nodes, ∀ p, attachTarget nodes n = some p →
      ∃ t ∈ subtreesOfForest (buildHierarchy nodes),
        t.data.id = p ∧ n ∈ t.children.map TreeNode.data) := by
  have hcr := childEntries_rank hrank
  have hperm := preorder_build_perm hnodup hcr hbound
  refine ⟨hperm, ?_, roots_data_eq hnodup, attached_in_parent_children hnodup hcr hbound⟩
  intro x hx
  rw [List.perm_iff_count.mp hperm x]
  exact List.count_eq_one_of_mem (hnodup.of_map) hx

theorem buildHierarchy_conserves_nodes_witness :
    List.Perm (preorderForest (buildHierarchy demoStore)) demoStore ∧
    (∀ x ∈ demoStore, (preorderForest (buildHierarchy demoStore)).count x = 1) ∧
    (buildHierarchy demoStore).map TreeNode.data = rootEntries demoStore ∧
    (∀ n ∈ demoStore, ∀ p, attachTarget demoStore n = some p →
      ∃ t ∈ subtreesOfForest (buildHierarchy demoStore),
        t.data.id = p ∧ n ∈ t.children.map TreeNode.data) :=
  buildHierarchy_conserves_nodes demoStore demoRank (by decide) (by decide) (by decide)

/-! ## C6 — which nodes become roots -/

/-- C6 counterexample: a node whose `parentId` is non-null but dangling
(matches no node in the list) is returned as a root by `buildHierarchy`,
so the roots are not exactly the nodes with null/absent `parentId`, and a
node with a non-null `parentId` can appear as a root. -/
def danglingNode : Node :=
  { id := "a", projectId := "p1", type := "folder", name := "A", content := "",
    parentId := some "zzz", x := 0, y := 0, expanded := false, size := 0,
    lineCount := 0, language := "" }

theorem buildHierarchy_dangling_root_counterexample :
    danglingNode.parentId = some "zzz" ∧
    danglingNode.parentId ≠ none ∧
    (buildHierarchy [danglingNode]).map TreeNode.data = [danglingNode] := by
  refine ⟨rfl, by decide, by decide⟩

/-- Acyclicity certificate for the attachment relation `buildHierarchy`
actually wires: the rank increases along every resolvable parent edge,
while a dangling or falsy `parentId` (which never becomes an edge) imposes
no constraint. -/
def attachRankOk (nodes : List Node) (rank : String → Nat) (n : Node) : Bool :=
  match attachTarget nodes n with
  | none => true
  | some p => decide (rank p < rank n.id)

theorem attachRankOk_childEntries {nodes : List Node} {rank : String → Nat}
    (hrank : ∀ n ∈ nodes, attachRankOk nodes rank n = true) :
    ∀ i, ∀ n ∈ childEntries nodes i, rank i < rank n.id := by
  intro i n hn
  rcases mem_childEntries.mp hn with ⟨hm, ha⟩
  have h := hrank n hm
  unfold attachRankOk at h
  rw [ha] at h
  exact of_decide_eq_true h

/-- Store for the C6 witness: the demo project plus a dangling node, which
the weakened acyclicity certificate admits. -/
def c6Store : List Node := [rootDemo, srcFolder, appFile, danglingNode]

/-- C6 amended: provided the flat list has pairwise-distinct ids and the
attachment relation over resolvable parents is acyclic (dangling parent
references remain allowed and impose no constraint), the roots of the
assembled hierarchy are exactly (and in input order) the nodes the
attachment rule leaves unattached — those whose `parentId` is null/absent,
the empty string, or matches no node id in the list; every other node
(non-null `parentId` naming an existing node) appears in that parent's
children sequence and never as a root. -/
theorem buildHierarchy_roots_exactly (nodes : List Node) (rank : String → Nat)
    (hnodup : (nodes.map Node.id).Nodup)
    (hrank : ∀ n ∈ nodes, attachRankOk nodes rank n = true)
    (hbound : ∀ n ∈ nodes, rank n.id < nodes.length) :
    ((buildHierarchy nodes).map TreeNode.data
      = nodes.filter (fun n => attachTarget nodes n = none)) ∧
    (∀ n ∈ nodes, attachTarget nodes n = none ↔
      (n.parentId = none ∨ n.parentId = some "" ∨ ∀ m ∈ nodes, some m.id ≠ n.parentId)) ∧
    (∀ n ∈ nodes, ∀ p, attachTarget nodes n = some p →
      n ∉ (buildHierarchy nodes).map TreeNode.data ∧
      ∃ t ∈ subtreesOfForest (buildHierarchy nodes),
        t.data.id = p ∧ n ∈ t.children.map TreeNode.data) := by
  have hcr := attachRankOk_childEntries hrank
  refine ⟨roots_data_eq hnodup, fun n _ => attachTarget_eq_none_iff, ?_⟩
  intro n hn p hat
  refine ⟨?_, attached_in_parent_children hnodup hcr hbound n hn p hat⟩
  rw [roots_data_eq hnodup]
  intro hmem
  rw [(mem_rootEntries.mp hmem).2] at hat
  cases hat

theorem buildHierarchy_roots_exactly_witness :
    ((buildHierarchy c6Store).map TreeNode.data
      = c6Store.filter (fun n => attachTarget c6Store n = none)) ∧
    (∀ n ∈ c6Store, attachTarget c6Store n = none ↔
      (n.parentId = none ∨ n.parentId = some "" ∨ ∀ m ∈ c6Store, some m.id ≠ n.parentId)) ∧
    (∀ n ∈ c6Store, ∀ p, attachTarget c6Store n = some p →
      n ∉ (buildHierarchy c6Store).map TreeNode.data ∧
      ∃ t ∈ subtreesOfForest (buildHierarchy c6Store),
        t.data.id = p ∧ n ∈ t.children.map TreeNode.data) :=
  buildHierarchy_roots_exactly c6Store demoRank (by decide) (by decide) (by decide)

/-! ## Round trip: rebuilding a flattened hierarchy -/

mutual

theorem flatten_filter_parent_nil_tree : ∀ (pid : String) (par : Option String)
    (t : TreeNode) (i : String), some i ≠ par →
    i ∉ (preorderTree t).map Node.id →
    (flattenTreeNode pid par t).filter (fun m => m.parentId = some i) = []
  | pid, par, .mk d cs, i, hpar, hids => by
    rw [flattenTreeNode, List.filter_cons_of_neg]
    · apply flatten_filter_parent_nil pid (some d.id) cs i
      · intro h
        apply hids
        rw [preorderTree, List.map_cons]
        exact List.mem_cons.mpr (Or.inl (Option.some.inj h))
      · intro h
        apply hids
        rw [preorderTree, List.map_cons]
        exact List.mem_cons.mpr (Or.inr h)
    · simp [stampNode_parentId]
      intro h
      exact hpar (h ▸ rfl)

theorem flatten_filter_parent_nil : ∀ (pid : String) (par : Option String)
    (ts : List TreeNode) (i : String), some i ≠ par →
    i ∉ (preorderForest ts).map Node.id →
    (flattenTree pid ts par).filter (fun m => m.parentId = some i) = []
  | _, _, [], _, _, _ => rfl
  | pid, par, t :: ts, i, hpar, hids => by
    rw [flattenTree, List.filter_append,
      flatten_filter_parent_nil_tree pid par t i hpar (fun h => hids (by
        rw [preorderForest, List.map_append]
        exact List.mem_append.mpr (Or.inl h))),
      flatten_filter_parent_nil pid par ts i hpar (fun h => hids (by
        rw [preorderForest, List.map_append]
        exact List.mem_append.mpr (Or.inr h))), List.nil_append]

end

theorem flatten_filter_parent_self (pid : String) (i : String) :
    ∀ cs : List TreeNode, i ∉ (preorderForest cs).map Node.id →
      (flattenTree pid cs (some i)).filter (fun m => m.parentId = some i)
        = cs.map (fun c => stampNode pid (some i) c.data)
  | [], _ => rfl
  | c :: cs, hids => by
    obtain ⟨d, ds⟩ := c
    have hids1 : i ∉ (preorderTree (TreeNode.mk d ds)).map Node.id := fun h => hids (by
      rw [preorderForest, List.map_append]
      exact List.mem_append.mpr (Or.inl h))
    have hids2 : i ∉ (preorderForest cs).map Node.id := fun h => hids (by
      rw [preorderForest, List.map_append]
      exact List.mem_append.mpr (Or.inr h))
    have hdne : i ≠ d.id := fun h => hids1 (by
      rw [preorderTree, List.map_cons]
      exact List.mem_cons.mpr (Or.inl h))
    have hinner : i ∉ (preorderForest ds).map Node.id := fun h => hids1 (by
      rw [preorderTree, List.map_cons]
      exact List.mem_cons.mpr (Or.inr h))
    rw [flattenTree, List.filter_append, flattenTreeNode, List.filter_cons_of_pos
      (by simp [stampNode_parentId]),
      flatten_filter_parent_nil pid (some d.id) ds i (fun h => hdne (Option.some.inj h)) hinner,
      flatten_filter_parent_self pid i cs hids2]
    rfl

theorem subtree_data_mem_ids {G : List TreeNode} {d : Node} {cs : List TreeNode}
    (hocc : TreeNode.mk d cs ∈ subtreesOfForest G) :
    d.id ∈ (preorderForest G).map Node.id :=
  List.mem_map.mpr ⟨d, (mem_preorderForest_iff G d).mpr ⟨_, hocc, rfl⟩, rfl⟩

theorem subtree_data_mem_ids_tree {t : TreeNode} {d : Node} {cs : List TreeNode}
    (hocc : TreeNode.mk d cs ∈ subtreesOfTree t) :
    d.id ∈ (preorderTree t).map Node.id :=
  List.mem_map.mpr ⟨d, (mem_preorderTree_iff t d).mpr ⟨_, hocc, rfl⟩, rfl⟩

mutual

theorem flatten_filter_occ_tree : ∀ (pid : String) (t : TreeNode) (par : Option String)
    (d : Node) (cs : List TreeNode) (i : String),
    ((preorderTree t).map Node.id).Nodup →
    TreeNode.mk d cs ∈ subtreesOfTree t → d.id = i → some i ≠ par →
    (flattenTreeNode pid par t).filter (fun m => m.parentId = some i)
      = cs.map (fun c => stampNode pid (some i) c.data)
  | pid, .mk e es, par, d, cs, i, hnd, hocc, hdi, hpar => by
    rw [preorderTree, List.map_cons, List.nodup_cons] at hnd
    rw [flattenTreeNode, List.filter_cons_of_neg (by
      simp [stampNode_parentId]
      intro h
      exact hpar (h ▸ rfl))]
    rw [subtreesOfTree] at hocc
    rcases List.mem_cons.mp hocc with heq | hocc'
    · injection heq with h1 h2
      subst h2
      subst h1
      subst hdi
      exact flatten_filter_parent_self pid d.id cs hnd.1
    · have hie : i ∈ (preorderForest es).map Node.id := hdi ▸ subtree_data_mem_ids hocc'
      have hne : some i ≠ some e.id := fun h => hnd.1 ((Option.some.inj h) ▸ hie)
      exact flatten_filter_occ pid es (some e.id) d cs i hnd.2 hocc' hdi hne

theorem flatten_filter_occ : ∀ (pid : String) (ts : List TreeNode) (par : Option String)
    (d : Node) (cs : List TreeNode) (i : String),
    ((preorderForest ts).map Node.id).Nodup →
    TreeNode.mk d cs ∈ subtreesOfForest ts → d.id = i → some i ≠ par →
    (flattenTree pid ts par).filter (fun m => m.parentId = some i)
      = cs.map (fun c => stampNode pid (some i) c.data)
  | pid, t :: ts, par, d, cs, i, hnd, hocc, hdi, hpar => by
    rw [preorderForest, List.map_append, List.nodup_append] at hnd
    rw [flattenTree, List.filter_append]
    rw [subtreesOfForest, List.mem_append] at hocc
    rcases hocc with hocc | hocc
    · have hnotts : i ∉ (preorderForest ts).map Node.id := fun h =>
        hnd.2.2 (hdi ▸ subtree_data_mem_ids_tree hocc) h
      rw [flatten_filter_occ_tree pid t par d cs i hnd.1 hocc hdi hpar,
        flatten_filter_parent_nil pid par ts i hpar hnotts, List.append_nil]
    · have hnott : i ∉ (preorderTree t).map Node.id := fun h =>
        hnd.2.2 h (hdi ▸ subtree_data_mem_ids hocc)
      rw [flatten_filter_parent_nil_tree pid par t i hpar hnott,
        flatten_filter_occ pid ts par d cs i hnd.2.1 hocc hdi hpar, List.nil_append]

end

theorem stamp_attach_none (L : List Node) (pid : String) (d : Node) :
    attachTarget L (stampNode pid none d) = none :=
  attachTarget_of_parentId_none (stampNode_parentId pid none d)

theorem stamp_attach_some (L : List Node) (pid : String) (d : Node) {s : String}
    (hne : s ≠ "") (hpres : L.any (fun m => m.id == s) = true) :
    attachTarget L (stampNode pid (some s) d) = some s :=
  attachTarget_eq_some (stampNode_parentId pid (some s) d) hne hpres

mutual

theorem rootfilter_drop_tree : ∀ (L : List Node) (pid : String) (t : TreeNode),
    goodTree t = true →
    (∀ a ∈ (preorderTree t).map Node.id, a ∈ L.map Node.id) →
    ∀ s : String, s ≠ "" → s ∈ L.map Node.id →
    (flattenTreeNode pid (some s) t).filter (fun m => attachTarget L m = none) = []
  | L, pid, .mk d cs, hg, hids, s, hs, hsL => by
    rw [goodTree, Bool.and_eq_true] at hg
    rw [flattenTreeNode, List.filter_cons_of_neg (by
      rw [stamp_attach_some L pid d hs (List.any_eq_true.mpr (by
        rcases List.mem_map.mp hsL with ⟨m, hm, hmid⟩
        exact ⟨m, hm, by simp [hmid]⟩))]
      simp)]
    cases cs with
    | nil => rfl
    | cons c cs' =>
      have hdne : d.id ≠ "" := by
        have := hg.1
        simp at this
        exact this
      have hdL : d.id ∈ L.map Node.id := hids d.id (by
        rw [preorderTree, List.map_cons]
        exact List.mem_cons.mpr (Or.inl rfl))
      exact rootfilter_drop_forest L pid (c :: cs') hg.2 (fun a ha => hids a (by
        rw [preorderTree, List.map_cons]
        exact List.mem_cons.mpr (Or.inr ha))) d.id hdne hdL

theorem rootfilter_drop_forest : ∀ (L : List Node) (pid : String) (ts : List TreeNode),
    goodForest ts = true →
    (∀ a ∈ (preorderForest ts).map Node.id, a ∈ L.map Node.id) →
    ∀ s : String, s ≠ "" → s ∈ L.map Node.id →
    (flattenTree pid ts (some s)).filter (fun m => attachTarget L m = none) = []
  | _, _, [], _, _, _, _, _ => rfl
  | L, pid, t :: ts, hg, hids, s, hs, hsL => by
    rw [goodForest, Bool.and_eq_true] at hg
    rw [flattenTree, List.filter_append,
      rootfilter_drop_tree L pid t hg.1 (fun a ha => hids a (by
        rw [preorderForest, List.map_append]
        exact List.mem_append.mpr (Or.inl ha))) s hs hsL,
      rootfilter_drop_forest L pid ts hg.2 (fun a ha => hids a (by
        rw [preorderForest, List.map_append]
        exact List.mem_append.mpr (Or.inr ha))) s hs hsL, List.nil_append]

end

theorem rootfilter_keep : ∀ (L : List Node) (pid : String) (ts : List TreeNode),
    goodForest ts = true →
    (∀ a ∈ (preorderForest ts).map Node.id, a ∈ L.map Node.id) →
    (flattenTree pid ts none).filter (fun m => attachTarget L m = none)
      = ts.map (fun t => stampNode pid none t.data)
  | _, _, [], _, _ => rfl
  | L, pid, t :: ts, hg, hids => by
    rw [goodForest, Bool.and_eq_true] at hg
    obtain ⟨d, cs⟩ := t
    have hids1 : ∀ a ∈ (preorderTree (TreeNode.mk d cs)).map Node.id, a ∈ L.map Node.id :=
      fun a ha => hids a (by
        rw [preorderForest, List.map_append]
        exact List.mem_append.mpr (Or.inl ha))
    have hids2 : ∀ a ∈ (preorderForest ts).map Node.id, a ∈ L.map Node.id :=
      fun a ha => hids a (by
        rw [preorderForest, List.map_append]
        exact List.mem_append.mpr (Or.inr ha))
    rw [flattenTree, List.filter_append, flattenTreeNode,
      List.filter_cons_of_pos (by rw [stamp_attach_none]; simp),
      rootfilter_keep L pid ts hg.2 hids2]
    rw [goodTree, Bool.and_eq_true] at hg
    cases cs with
    | nil => rfl
    | cons c cs' =>
      have hdne : d.id ≠ "" := by
        have := hg.1.1
        simp at this
        exact this
      have hdL : d.id ∈ L.map Node.id := hids1 d.id (by
        rw [preorderTree, List.map_cons]
        exact List.mem_cons.mpr (Or.inl rfl))
      rw [rootfilter_drop_forest L pid (c :: cs') hg.1.2 (fun a ha => hids1 a (by
        rw [preorderTree, List.map_cons]
        exact List.mem_cons.mpr (Or.inr ha))) d.id hdne hdL]
      rfl

/-- The children the rebuild attaches to an occurrence's id are exactly the
stamped structural children of that occurrence. -/
theorem childEntries_flatten {G : List TreeNode} {pid : String}
    (hG : ((preorderForest G).map Node.id).Nodup)
    (hgood : goodForest G = true) {d : Node} {cs : List TreeNode}
    (hocc : TreeNode.mk d cs ∈ subtreesOfForest G) :
    childEntries (flattenTree pid G none) d.id
      = cs.map (fun c => stampNode pid (some d.id) c.data) := by
  have hocc_good := good_subtree_forest G hgood _ hocc
  by_cases hid : d.id = ""
  · have hcs : cs = [] := by
      rw [goodTree, Bool.and_eq_true] at hocc_good
      have h1 := hocc_good.1
      rw [hid] at h1
      simp at h1
      exact h1
    subst hcs
    rw [hid, List.map_nil]
    unfold childEntries
    apply List.filter_eq_nil_iff.mpr
    intro m _
    simp only [decide_eq_true_eq]
    exact attachTarget_ne_some_empty
  · have hpres : d.id ∈ (flattenTree pid G none).map Node.id := by
      rw [flattenTree_map_id]
      exact subtree_data_mem_ids hocc
    unfold childEntries
    have hcong : ∀ m ∈ flattenTree pid G none,
        decide (attachTarget (flattenTree pid G none) m = some d.id)
          = decide (m.parentId = some d.id) := by
      intro m _
      by_cases hm : m.parentId = some d.id
      · rw [attachTarget_eq_some hm hid (List.any_eq_true.mpr (by
          rcases List.mem_map.mp hpres with ⟨q, hq, hqid⟩
          exact ⟨q, hq, by simp [hqid]⟩))]
        simp [hm]
      · have : attachTarget (flattenTree pid G none) m ≠ some d.id := by
          intro h
          exact hm (attachTarget_some h).1
        simp [hm, this]
    rw [List.filter_congr hcong]
    exact flatten_filter_occ pid G none d cs d.id hG hocc rfl (by simp)

theorem rebuild_subtree_shape {G : List TreeNode} {pid : String}
    (hG : ((preorderForest G).map Node.id).Nodup)
    (hgood : goodForest G = true) :
    ∀ fuel (t : TreeNode), t ∈ subtreesOfForest G → depthTree t ≤ fuel →
      ∀ par, shapeOfTree
          (buildSubtree (flattenTree pid G none) fuel (stampNode pid par t.data))
        = shapeOfTree t := by
  have hLnodup : ((flattenTree pid G none).map Node.id).Nodup := by
    rw [flattenTree_map_id]
    exact hG
  intro fuel
  induction fuel with
  | zero =>
    intro t ht hd
    obtain ⟨d, cs⟩ := t
    rw [depthTree] at hd
    omega
  | succ fuel ih =>
    intro t ht hd par
    obtain ⟨d, cs⟩ := t
    rw [buildSubtree_succ hLnodup]
    rw [shapeOfTree, shapeOfTree]
    rw [TreeNode.data_mk, stampNode_id, childEntries_flatten hG hgood ht]
    congr 1
    rw [shapeOfForest_eq_map, shapeOfForest_eq_map, List.map_map, List.map_map]
    apply List.map_congr_left
    intro c hc
    have hcsub : c ∈ subtreesOfForest G := subtrees_closed_forest G _ ht c hc
    have hcd : depthTree c ≤ fuel := by
      rw [depthTree] at hd
      have := depthTree_le_depthForest cs c hc
      omega
    exact ih c hcsub hcd (some d.id)

theorem goodForest_of_all : ∀ ts : List TreeNode,
    (∀ t ∈ ts, goodTree t = true) → goodForest ts = true
  | [], _ => rfl
  | t :: ts, h => by
    rw [goodForest, Bool.and_eq_true]
    exact ⟨h t (by simp), goodForest_of_all ts (fun u hu => h u (by simp [hu]))⟩

theorem goodTree_buildSubtree (nodes : List Node) :
    ∀ fuel (n : Node), goodTree (buildSubtree nodes fuel n) = true := by
  intro fuel
  induction fuel with
  | zero =>
    intro n
    rw [buildSubtree, goodTree]
    rfl
  | succ fuel ih =>
    intro n
    rw [buildSubtree, goodTree, Bool.and_eq_true]
    constructor
    · cases hce : childEntries nodes n.id with
      | nil => rfl
      | cons c cs =>
        have hc : c ∈ childEntries nodes n.id := by rw [hce]; simp
        have hne : n.id ≠ "" := (attachTarget_some (mem_childEntries.mp hc).2).2.1
        simp [hne]
    · apply goodForest_of_all
      intro t ht
      rcases List.mem_map.mp ht with ⟨m, _, rfl⟩
      exact ih (resolve nodes m)

theorem goodForest_buildHierarchy (nodes : List Node) :
    goodForest (buildHierarchy nodes) = true := by
  apply goodForest_of_all
  intro t ht
  rcases List.mem_map.mp ht with ⟨m, _, rfl⟩
  exact goodTree_buildSubtree nodes nodes.length (resolve nodes m)

/-- Rebuilding a flattened good, distinct-id forest reproduces its shape. -/
theorem rebuild_shape (G : List TreeNode) (pid : String)
    (hG : ((preorderForest G).map Node.id).Nodup)
    (hgood : goodForest G = true) :
    shapeOfForest (buildHierarchy (flattenTree pid G none)) = shapeOfForest G := by
  have hLnodup : ((flattenTree pid G none).map Node.id).Nodup := by
    rw [flattenTree_map_id]
    exact hG
  have hlen : (flattenTree pid G none).length = (preorderForest G).length := by
    have h1 := congrArg List.length (flattenTree_map_id pid none G)
    rw [List.length_map, List.length_map] at h1
    exact h1
  rw [buildHierarchy_eq hLnodup]
  have hroot : rootEntries (flattenTree pid G none)
      = G.map (fun t => stampNode pid none t.data) := by
    unfold rootEntries
    exact rootfilter_keep _ pid G hgood (fun a ha => by
      rw [flattenTree_map_id]
      exact ha)
  rw [hroot, List.map_map, shapeOfForest_eq_map, shapeOfForest_eq_map, List.map_map]
  apply List.map_congr_left
  intro t ht
  have hdep : depthTree t ≤ (flattenTree pid G none).length := by
    have h1 := depthTree_le_depthForest G t ht
    have h2 := depthForest_le_preorder G
    omega
  exact rebuild_subtree_shape hG hgood (flattenTree pid G none).length t
    (self_mem_subtreesOfForest G t ht) hdep none

/-! ## C4 — assemble/flatten round trip -/

/-- C4 counterexample: a flat set with no cycles (certified by a rank) but
two nodes sharing an id.  The round trip duplicates the shared child
attachment, so the rebuilt forest has a different parent/child shape: the
shape fingerprints (preorder (id, child-count) lists) differ, hence the
shapes differ. -/
def c4Child : Node :=
  { id := "y", projectId := "p1", type := "folder", name := "C", content := "",
    parentId := some "x", x := 0, y := 0, expanded := false, size := 0,
    lineCount := 0, language := "" }

def c4Store : List Node := [dupA, dupB, c4Child]

def c4Rank (s : String) : Nat := if s = "y" then 1 else 0

theorem roundtrip_shape_counterexample :
    (∀ n ∈ c4Store, rankOk c4Rank n = true) ∧
    shapeSigForest (shapeOfForest
        (buildHierarchy (flattenTree "p1" (buildHierarchy c4Store) none)))
      ≠ shapeSigForest (shapeOfForest (buildHierarchy c4Store)) := by
  exact ⟨by decide, by decide⟩

/-- C4 amended: for every flat node set with no cycles AND pairwise-distinct
ids, reassembling the flattened assembled hierarchy reproduces the same
parent/child structural shape as assembling the flat set directly. -/
theorem assemble_flatten_roundtrip (nodes : List Node) (pid : String) (rank : String → Nat)
    (hnodup : (nodes.map Node.id).Nodup)
    (hrank : ∀ n ∈ nodes, rankOk rank n = true)
    (hbound : ∀ n ∈ nodes, rank n.id < nodes.length) :
    shapeOfForest (buildHierarchy (flattenTree pid (buildHierarchy nodes) none))
      = shapeOfForest (buildHierarchy nodes) := by
  apply rebuild_shape
  · have hperm := (preorder_build_perm hnodup (childEntries_rank hrank) hbound).map Node.id
    exact (hperm.nodup_iff).mpr hnodup
  · exact goodForest_buildHierarchy nodes

theorem assemble_flatten_roundtrip_witness :
    shapeOfForest (buildHierarchy (flattenTree "demo-project" (buildHierarchy demoStore) none))
      = shapeOfForest (buildHierarchy demoStore) :=
  assemble_flatten_roundtrip demoStore "demo-project" demoRank
    (by decide) (by decide) (by decide)

end FSX
